import Mathlib

/-!
# BansheeEngine thread pool (BsThreadPool.cpp)

A sequential embedding of `PooledThread` and `ThreadPool`.

* A `PooledThread*` held in `mThreads` is embedded as the worker record itself,
  tagged with a ghost allocation number `id` that plays the part of the address.
* `std::function<void()>` values are embedded as natural-number tags; an empty
  function is `none`.
* `std::time(nullptr)` is a parameter `now` of every operation that reads the clock.
* `UINT32` quantities are natural numbers reduced modulo `2^32` where the source
  converts or increments them.
* Two ghost fields instrument the pool: `destroyed` logs every worker handed to
  `destroyThread` and `numClears` counts the calls of `clearUnused`.
* The backing thread of a worker is a state machine over the critical sections of
  `start()`, `destroy()` and the run loop. `destroy()` ends in a join on that thread:
  whether it returns is computed on the state machine, and a `stopAll()` that meets a
  `destroy()` which does not return does not return either.
-/

namespace BansheeEngine

/-- Value of a `UINT32` conversion or increment: reduction modulo `2^32`. -/
def u32 (n : Nat) : Nat := n % 4294967296

/-- Tag standing for a `std::function<void()>` unit of work. -/
abbrev WorkerMethod := Nat

/-- Fields of `PooledThread`, plus the ghost allocation number `id`. -/
structure PooledThread where
  id : Nat
  mName : String
  mIdle : Bool
  mThreadStarted : Bool
  mThreadReady : Bool
  mIdleTime : Int
  mWorkerMethod : Option WorkerMethod
deriving DecidableEq

namespace PooledThread

/-- Constructor `PooledThread::PooledThread(name)`: idle, not started, not ready,
idle time 0, empty worker method. -/
def new (id : Nat) (name : String) : PooledThread :=
  { id := id, mName := name, mIdle := true, mThreadStarted := false,
    mThreadReady := false, mIdleTime := 0, mWorkerMethod := none }

/-- State after `PooledThread::initialize()` returns: the backing thread has
executed the first critical section of `run()` and set `mThreadStarted`. -/
def initializeThread (t : PooledThread) : PooledThread :=
  { t with mThreadStarted := true }

/-- Critical section of `PooledThread::start(workerMethod)`. -/
def start (now : Int) (workerMethod : WorkerMethod) (t : PooledThread) : PooledThread :=
  { t with mWorkerMethod := some workerMethod, mIdle := false, mIdleTime := now,
           mThreadReady := true }

/-- Critical section of `PooledThread::run()` that follows `worker()`. -/
def finishTask (now : Int) (t : PooledThread) : PooledThread :=
  { t with mIdle := true, mIdleTime := now, mThreadReady := false }

/-- Critical section of `PooledThread::destroy()`. -/
def destroy (t : PooledThread) : PooledThread :=
  { t with mWorkerMethod := none, mThreadReady := true }

/-- Accessor `PooledThread::isIdle()`. -/
def isIdle (t : PooledThread) : Bool := t.mIdle

/-- Accessor `PooledThread::idleTime()`: `time(nullptr) - mIdleTime`. -/
def idleTime (now : Int) (t : PooledThread) : Int := now - t.mIdleTime

/-- Method `PooledThread::setName(name)`. -/
def setName (name : String) (t : PooledThread) : PooledThread :=
  { t with mName := name }

end PooledThread

/-! ### Worker state machine

The backing thread of a worker executes `PooledThread::run()`. Its position in the loop
is added to the fields of the worker; the atomic steps are the critical sections of
`start()`, of `destroy()` and of the run loop. -/

/-- Position of the backing thread in the loop of `PooledThread::run()`: blocked in or
about to evaluate the wait `while(!mThreadReady)`, executing the local copy `worker()`
outside the lock, or returned. -/
inductive LoopPhase where
  | waiting
  | running (worker : WorkerMethod)
  | exited
deriving DecidableEq

/-- A worker together with the position of its backing thread. -/
structure WorkerState where
  thread : PooledThread
  phase : LoopPhase
deriving DecidableEq

/-- Atomic steps on a worker: the critical section of `start(workerMethod)`, the
critical section of `destroy()` (the signalling step), the first critical section of the
loop (wait guard, test of `mWorkerMethod`, copy into `worker`), and the critical section
that follows `worker()`. -/
inductive WorkerEvent where
  | start (now : Int) (workerMethod : WorkerMethod)
  | destroySignal
  | loopWake
  | loopFinish (now : Int)
deriving DecidableEq

/-- Wait guard of the run loop: the loop leaves `while(!mThreadReady)` only when
`mThreadReady` is set. -/
def waitGuard (s : WorkerState) : Bool := s.thread.mThreadReady

/-- One atomic step of the worker state machine; `none` when the step cannot be taken
(the loop is blocked in its wait, or the backing thread is not at that place). -/
def workerStep (s : WorkerState) : WorkerEvent → Option WorkerState
  | WorkerEvent.start now workerMethod => some { s with thread := s.thread.start now workerMethod }
  | WorkerEvent.destroySignal => some { s with thread := s.thread.destroy }
  | WorkerEvent.loopWake =>
    match s.phase with
    | LoopPhase.waiting =>
      if waitGuard s then
        match s.thread.mWorkerMethod with
        | none => some { s with phase := LoopPhase.exited }
        | some worker => some { s with phase := LoopPhase.running worker }
      else none
    | _ => none
  | WorkerEvent.loopFinish now =>
    match s.phase with
    | LoopPhase.running _ => some { thread := s.thread.finishTask now, phase := LoopPhase.waiting }
    | _ => none

/-- A finite sequence of atomic steps; `none` as soon as one cannot be taken. -/
def workerExec (s : WorkerState) : List WorkerEvent → Option WorkerState
  | [] => some s
  | e :: es =>
    match workerStep s e with
    | some s1 => workerExec s1 es
    | none => none

/-- The backing thread running on by itself from `s`, no other thread touching the
worker: a task in execution finishes (at clock reading `now`) and the loop takes the
steps it can take, until it has exited or is blocked in its wait. `fuel` bounds the
number of steps; three are always enough (`loopRunsOn_stable`). -/
def loopRunsOn (now : Int) : Nat → WorkerState → WorkerState
  | 0, s => s
  | fuel + 1, s =>
    match s.phase with
    | LoopPhase.running _ =>
      match workerStep s (WorkerEvent.loopFinish now) with
      | some s1 => loopRunsOn now fuel s1
      | none => s
    | LoopPhase.waiting =>
      match workerStep s WorkerEvent.loopWake with
      | some s1 => loopRunsOn now fuel s1
      | none => s
    | LoopPhase.exited => s

/-- Whether `PooledThread::destroy()` returns: after its critical section (the
signalling step) it notifies the loop and waits in `BS_THREAD_JOIN` for the backing
thread to reach the end of `run()`. `now` is the clock reading during that wait. -/
def destroyJoins (now : Int) (s : WorkerState) : Bool :=
  match workerStep s WorkerEvent.destroySignal with
  | some s1 => decide ((loopRunsOn now 3 s1).phase = LoopPhase.exited)
  | none => false

/-- Position of the backing thread of a worker owned by the pool, read off its record:
the notify of `start()` wakes the loop, so a worker that was handed a task and has not
reached the critical section after it is executing that task; any other worker is at
the wait. -/
def threadPhase (t : PooledThread) : LoopPhase :=
  match t.mIdle, t.mWorkerMethod with
  | false, some worker => LoopPhase.running worker
  | _, _ => LoopPhase.waiting

/-- Whether `thread->destroy()` returns for a worker owned by the pool. -/
def destroyReturns (now : Int) (t : PooledThread) : Bool :=
  destroyJoins now { thread := t, phase := threadPhase t }

/-- Fields of `ThreadPool`, plus ghost state: `nextId` numbers the allocations,
`destroyed` logs the workers handed to `destroyThread` (in call order, each in the
state it had when handed over) and `numClears` counts `clearUnused` calls. -/
structure ThreadPool where
  mDefaultCapacity : Nat
  mMaxCapacity : Nat
  mIdleTimeout : Nat
  mAge : Nat
  mThreads : List PooledThread
  nextId : Nat
  destroyed : List PooledThread
  numClears : Nat
deriving DecidableEq

/-- Outcome of `ThreadPool::run`: normal return or the `InvalidStateException`
raised when the maximum capacity has been reached. -/
inductive RunResult where
  | ok
  | capacityExceeded
deriving DecidableEq

/-- Modelled from the spec: `createThread(name)` is declared in BsThreadPool.h, which
is not among the sources; the spec says a new Worker is created and `initialize()`d.
The worker is built by the constructor and initialised, at a fresh allocation number. -/
def createThread (id : Nat) (name : String) : PooledThread :=
  (PooledThread.new id name).initializeThread

/-- Outcome of `ThreadPool::stopAll()`: the call returns and leaves pool `p`, or it
never returns: it is blocked in the join of worker `stuckOn`, the workers in `log`
having been destroyed. -/
inductive StopOutcome where
  | returned (p : ThreadPool)
  | blocked (log : List PooledThread) (stuckOn : PooledThread)
deriving DecidableEq

/-- Whether the call returned. -/
def StopOutcome.hasReturned : StopOutcome → Bool
  | StopOutcome.returned _ => true
  | StopOutcome.blocked _ _ => false

/-- Allocation number of the worker whose join blocks the call, if any. -/
def StopOutcome.stuckId : StopOutcome → Option Nat
  | StopOutcome.returned _ => none
  | StopOutcome.blocked _ t => some t.id

/-- Pool left by the call when it returns. -/
def StopOutcome.poolAfter : StopOutcome → Option ThreadPool
  | StopOutcome.returned p => some p
  | StopOutcome.blocked _ _ => none

/-- Log of destroyed workers when the call returns or blocks. -/
def StopOutcome.destroyedLog : StopOutcome → List PooledThread
  | StopOutcome.returned p => p.destroyed
  | StopOutcome.blocked log _ => log

namespace ThreadPool

/-- Constructor `ThreadPool::ThreadPool(threadCapacity, maxCapacity, idleTimeout)`;
the three parameters are `UINT32`. -/
def new (threadCapacity maxCapacity idleTimeout : Nat) : ThreadPool :=
  { mDefaultCapacity := u32 threadCapacity, mMaxCapacity := u32 maxCapacity,
    mIdleTimeout := u32 idleTimeout, mAge := 0, mThreads := [], nextId := 0,
    destroyed := [], numClears := 0 }

/-- Method `ThreadPool::destroyThread(thread)`, once `thread->destroy()` has returned:
`bs_delete` takes the worker off the heap and it is appended to the ghost log. Whether
`destroy()` returns is `destroyReturns`; `clearUnused` destroys idle workers only, for
which it does (`destroyReturns_of_idle`). -/
def destroyThread (t : PooledThread) (log : List PooledThread) : List PooledThread :=
  log ++ [t]

/-- Loop of `ThreadPool::stopAll()`: every owned worker goes through `destroyThread` in
collection order. The result is the log of destroyed workers and, when the `destroy()`
of a worker does not return, that worker: the loop goes no further. -/
def stopAllLoop (now : Int) :
    List PooledThread → List PooledThread → List PooledThread × Option PooledThread
  | [], log => (log, none)
  | t :: ts, log =>
    if destroyReturns now t then stopAllLoop now ts (destroyThread t log)
    else (log, some t)

/-- First loop of `clearUnused`: distributes the workers over
`(idleThreads, expiredThreads, activeThreads)`, pushing at the back. -/
def classify (now : Int) (idleTimeout : Nat) :
    List PooledThread → List PooledThread × List PooledThread × List PooledThread →
    List PooledThread × List PooledThread × List PooledThread
  | [], acc => acc
  | t :: ts, (idleThreads, expiredThreads, activeThreads) =>
    if t.isIdle then
      if t.idleTime now ≥ (idleTimeout : Int) then
        classify now idleTimeout ts (idleThreads, expiredThreads ++ [t], activeThreads)
      else
        classify now idleTimeout ts (idleThreads ++ [t], expiredThreads, activeThreads)
    else
      classify now idleTimeout ts (idleThreads, expiredThreads, activeThreads ++ [t])

/-- Second loop of `clearUnused`: a candidate is pushed back onto `mThreads` when
`i < limit` and handed to `destroyThread` otherwise. The source never changes `i`
inside the loop, so it is passed along unchanged. The result is
`(mThreads, destroyed log)`. -/
def retainLoop (i limit : Nat) :
    List PooledThread → List PooledThread × List PooledThread →
    List PooledThread × List PooledThread
  | [], acc => acc
  | t :: ts, (threads, log) =>
    if i < limit then retainLoop i limit ts (threads ++ [t], log)
    else retainLoop i limit ts (threads, destroyThread t log)

/-- Method `ThreadPool::stopAll()`: when every `destroy()` returns, the collection is
cleared and the call returns; otherwise the call blocks for ever, holding the pool lock,
in the join of the first worker whose `destroy()` does not return. -/
def stopAll (now : Int) (p : ThreadPool) : StopOutcome :=
  match stopAllLoop now p.mThreads p.destroyed with
  | (log, none) => StopOutcome.returned { p with destroyed := log, mThreads := [] }
  | (log, some t) => StopOutcome.blocked log t

/-- Method `ThreadPool::clearUnused()`, the shrink pass. -/
def clearUnused (now : Int) (p : ThreadPool) : ThreadPool :=
  let p1 : ThreadPool := { p with mAge := 0, numClears := p.numClears + 1 }
  if p1.mThreads.length ≤ p1.mDefaultCapacity then p1
  else
    let parts := classify now p1.mIdleTimeout p1.mThreads ([], [], [])
    let idleThreads := parts.1 ++ parts.2.1
    let activeThreads := parts.2.2
    let limit := min (u32 idleThreads.length) p1.mDefaultCapacity
    let res := retainLoop 0 limit idleThreads ([], p1.destroyed)
    { p1 with mThreads := res.1 ++ activeThreads, destroyed := res.2 }

/-- First part of `getThread`: `age = ++mAge`, then `clearUnused()` when
`age == 32`. The result is the pool as the selection scan finds it. -/
def ageStep (now : Int) (p : ThreadPool) : ThreadPool :=
  let age := u32 (p.mAge + 1)
  let p1 : ThreadPool := { p with mAge := age }
  if age = 32 then clearUnused now p1 else p1

/-- Scan of `getThread`: position of the first worker whose `isIdle()` holds. -/
def firstIdle : List PooledThread → Option Nat
  | [] => none
  | t :: ts => if t.isIdle then some 0 else (firstIdle ts).map (· + 1)

/-- Applies `f` to the worker at position `i` (a call through the pointer). -/
def updateAt (f : PooledThread → PooledThread) : Nat → List PooledThread → List PooledThread
  | _, [] => []
  | 0, t :: ts => f t :: ts
  | n + 1, t :: ts => t :: updateAt f n ts

/-- Second part of `getThread`: the first idle worker is renamed and returned;
otherwise the call throws when `mThreads.size() >= mMaxCapacity`, and else creates
a worker and pushes it at the back. The returned pointer is given as the position
of the worker in the resulting `mThreads`; `none` stands for the exception. -/
def selectStep (name : String) (p : ThreadPool) : ThreadPool × Option Nat :=
  match firstIdle p.mThreads with
  | some i => ({ p with mThreads := updateAt (PooledThread.setName name) i p.mThreads }, some i)
  | none =>
    if p.mThreads.length ≥ p.mMaxCapacity then (p, none)
    else
      ({ p with mThreads := p.mThreads ++ [createThread p.nextId name],
                nextId := p.nextId + 1 }, some p.mThreads.length)

/-- Method `ThreadPool::getThread(name)`. -/
def getThread (name : String) (now : Int) (p : ThreadPool) : ThreadPool × Option Nat :=
  selectStep name (ageStep now p)

/-- Method `ThreadPool::run(name, workerMethod)`: `getThread(name)->start(workerMethod)`.
When `getThread` throws, the pool keeps the state `getThread` left behind. -/
def run (name : String) (workerMethod : WorkerMethod) (now : Int) (p : ThreadPool) :
    ThreadPool × RunResult :=
  match getThread name now p with
  | (p1, some i) =>
    ({ p1 with mThreads := updateAt (PooledThread.start now workerMethod) i p1.mThreads },
      RunResult.ok)
  | (p1, none) => (p1, RunResult.capacityExceeded)

/-- Method `ThreadPool::getNumAvailable()`: counts the idle workers in a `UINT32`. -/
def getNumAvailable (p : ThreadPool) : Nat :=
  p.mThreads.foldl (fun numAvailable t => if t.isIdle then u32 (numAvailable + 1) else numAvailable) 0

/-- Method `ThreadPool::getNumActive()`: counts the busy workers in a `UINT32`. -/
def getNumActive (p : ThreadPool) : Nat :=
  p.mThreads.foldl (fun numActive t => if !t.isIdle then u32 (numActive + 1) else numActive) 0

/-- Method `ThreadPool::getNumAllocated()`: `(UINT32)mThreads.size()`. -/
def getNumAllocated (p : ThreadPool) : Nat := u32 p.mThreads.length

/-- Completion of the task of worker `id`: the backing thread of that worker, when
it is owned and busy, executes the critical section that follows `worker()`. -/
def taskDone (now : Int) (id : Nat) (p : ThreadPool) : ThreadPool :=
  let threads := p.mThreads.map
    (fun t => if t.id = id ∧ t.mIdle = false then t.finishTask now else t)
  { p with mThreads := threads }

end ThreadPool

/-- Events applied to a pool: the three public operations and a task completion. -/
inductive PoolOp where
  | run (now : Int) (name : String) (workerMethod : WorkerMethod)
  | clearUnused (now : Int)
  | stopAll (now : Int)
  | taskDone (now : Int) (id : Nat)
deriving DecidableEq

/-- Whether the event is a call of `run`. -/
def PoolOp.isRun : PoolOp → Bool
  | PoolOp.run _ _ _ => true
  | _ => false

/-- Whether the event is an explicit call of `clearUnused`. -/
def PoolOp.isClearUnused : PoolOp → Bool
  | PoolOp.clearUnused _ => true
  | _ => false

/-- Whether the call made by the event returns; only `stopAll` can block. -/
def opReturns (p : ThreadPool) : PoolOp → Bool
  | PoolOp.stopAll now => (p.stopAll now).hasReturned
  | _ => true

/-- Effect of one event on the pool; a failing `run` leaves the pool as `getThread`
left it. For a `stopAll` that does not return there is no pool after the call and the
pool before it is given. -/
def step (p : ThreadPool) : PoolOp → ThreadPool
  | PoolOp.run now name workerMethod => (p.run name workerMethod now).1
  | PoolOp.clearUnused now => p.clearUnused now
  | PoolOp.stopAll now =>
    match p.stopAll now with
    | StopOutcome.returned q => q
    | StopOutcome.blocked _ _ => p
  | PoolOp.taskDone now id => p.taskDone now id

/-- Effect of a finite sequence of events: the pool after the last call that returned.
The sequence ends at a call that does not return, the events after it never happen. -/
def execAll : ThreadPool → List PoolOp → ThreadPool
  | p, [] => p
  | p, op :: ops => if opReturns p op then execAll (step p op) ops else p

/-- The events of a sequence that take place: those up to the first call that does not
return. -/
def executedOps : ThreadPool → List PoolOp → List PoolOp
  | _, [] => []
  | p, op :: ops => if opReturns p op then op :: executedOps (step p op) ops else []

/-- Number of `run` calls in a sequence of events. -/
def countRuns (ops : List PoolOp) : Nat :=
  (ops.filter PoolOp.isRun).length

/-- Idle worker whose idle time is below the timeout: goes to `idleThreads`. -/
def isFresh (now : Int) (idleTimeout : Nat) (t : PooledThread) : Bool :=
  t.isIdle && !decide (t.idleTime now ≥ (idleTimeout : Int))

/-- Idle worker whose idle time is at or above the timeout: goes to `expiredThreads`. -/
def isExpired (now : Int) (idleTimeout : Nat) (t : PooledThread) : Bool :=
  t.isIdle && decide (t.idleTime now ≥ (idleTimeout : Int))

/-- Worker that is not idle: goes to `activeThreads`. -/
def isBusy (t : PooledThread) : Bool := !t.isIdle

/-- Candidate list of `clearUnused` after `idleThreads.insert(end, expiredThreads)`:
fresh idle workers in collection order, then expired idle workers in collection order. -/
def candidates (now : Int) (p : ThreadPool) : List PooledThread :=
  p.mThreads.filter (isFresh now p.mIdleTimeout) ++ p.mThreads.filter (isExpired now p.mIdleTimeout)

/-- Workers newly handed to `destroyThread` between pool state `p` and pool state `q`:
the part of the log of `q` that lies beyond the log of `p`. -/
def newlyDestroyed (p q : ThreadPool) : List PooledThread :=
  q.destroyed.drop p.destroyed.length

/-- Pool states reached from a freshly constructed pool by a finite sequence of events. -/
def Reachable (p : ThreadPool) : Prop :=
  ∃ (threadCapacity maxCapacity idleTimeout : Nat) (ops : List PoolOp),
    p = execAll (ThreadPool.new threadCapacity maxCapacity idleTimeout) ops

/-- Scenario pool of the spec: `Pool(defaultCapacity=2, maxCapacity=4, idleTimeout=60)`. -/
def scenarioPool : ThreadPool := ThreadPool.new 2 4 60

/-- Four dispatches at time 0, no task completing. -/
def fourRuns : List PoolOp :=
  [PoolOp.run 0 "a" 1, PoolOp.run 0 "b" 2, PoolOp.run 0 "c" 3, PoolOp.run 0 "d" 4]

/-- The four tasks of `fourRuns` complete at time 1. -/
def fourDone : List PoolOp :=
  [PoolOp.taskDone 1 0, PoolOp.taskDone 1 1, PoolOp.taskDone 1 2, PoolOp.taskDone 1 3]

/-- Scenario pool after four dispatches of which worker 0 finished at time 1 and
worker 1 at time 50; workers 2 and 3 are still busy. -/
def mixedPool : ThreadPool :=
  execAll scenarioPool (fourRuns ++ [PoolOp.taskDone 1 0, PoolOp.taskDone 50 1])

/-- Scenario pool after one dispatch at time 0 whose task completed at time 1. -/
def oneDonePool : ThreadPool :=
  execAll scenarioPool [PoolOp.run 0 "a" 1, PoolOp.taskDone 1 0]

/-- One call `run(name, workerMethod)` made at clock reading `now`, given as the
triple `(now, name, workerMethod)`. -/
def callOp (c : Int × String × WorkerMethod) : PoolOp := PoolOp.run c.1 c.2.1 c.2.2

/-- Worker created by `createThread` at allocation number `id` for the call `c` and
then started with the task of that call. -/
def startedWorker (id : Nat) (c : Int × String × WorkerMethod) : PooledThread :=
  (createThread id c.2.1).start c.1 c.2.2

/-- The four dispatches of `fourRuns` given as calls `(now, name, workerMethod)`. -/
def fourCalls : List (Int × String × WorkerMethod) :=
  [(0, "a", 1), (0, "b", 2), (0, "c", 3), (0, "d", 4)]

/-- Allocation numbers of the owned workers, in collection order. -/
def ownedIds (p : ThreadPool) : List Nat := p.mThreads.map (fun t => t.id)

/-- Well-formedness of the owned collection: no allocation number occurs twice and all
of them were handed out by the allocator. -/
def DistinctWorkers (p : ThreadPool) : Prop :=
  (ownedIds p).Nodup ∧ ∀ n ∈ ownedIds p, n < p.nextId

/-- Scenario pool after two dispatches at time 0 whose tasks both completed at time 1:
two idle workers, as many as the default capacity. -/
def twoIdlePool : ThreadPool :=
  execAll scenarioPool
    [PoolOp.run 0 "a" 1, PoolOp.run 0 "b" 2, PoolOp.taskDone 1 0, PoolOp.taskDone 1 1]

/-- Worker as `createThread` returns it: initialised, its backing thread at the wait. -/
def freshWorker : WorkerState :=
  { thread := createThread 0 "w", phase := LoopPhase.waiting }

/-- Worker executing task 7: created, started at time 0, woken. -/
def busyWorker : Option WorkerState :=
  workerExec freshWorker [WorkerEvent.start 0 7, WorkerEvent.loopWake]

/-! ### Two concurrent calls of `run`

`ThreadPool::run` is `getThread(name)->start(workerMethod)`: the selection runs under
the pool lock and is one atomic step; the hand-off `start` is a later step, taken after
the pool lock is released. -/

/-- Pointer returned by `getThread`, as the allocation number of the selected worker;
`none` stands for the exception. -/
def getThreadPtr (name : String) (now : Int) (p : ThreadPool) : ThreadPool × Option Nat :=
  match p.getThread name now with
  | (p1, some i) => (p1, (p1.mThreads[i]?).map (fun t => t.id))
  | (p1, none) => (p1, none)

/-- Call `ptr->start(workerMethod)` through a pointer obtained earlier. -/
def startPtr (now : Int) (workerMethod : WorkerMethod) (ptr : Nat) (p : ThreadPool) : ThreadPool :=
  let threads := p.mThreads.map (fun t => if t.id = ptr then t.start now workerMethod else t)
  { p with mThreads := threads }

/-- Pool shared by two callers A and B, with the pointer each caller holds once its
`getThread` has returned. -/
structure RaceState where
  pool : ThreadPool
  handedA : Option Nat
  handedB : Option Nat
deriving DecidableEq

/-- Atomic steps of two concurrent calls of `run`: the selection and the hand-off of
each caller. -/
inductive RaceStep where
  | selectA
  | startA
  | selectB
  | startB
deriving DecidableEq

/-- One atomic step of the two callers; `callA` and `callB` are the calls
`(now, name, workerMethod)`. -/
def raceStep (callA callB : Int × String × WorkerMethod) (s : RaceState) : RaceStep → RaceState
  | RaceStep.selectA =>
    { s with pool := (getThreadPtr callA.2.1 callA.1 s.pool).1,
             handedA := (getThreadPtr callA.2.1 callA.1 s.pool).2 }
  | RaceStep.startA =>
    match s.handedA with
    | some ptr => { s with pool := startPtr callA.1 callA.2.2 ptr s.pool }
    | none => s
  | RaceStep.selectB =>
    { s with pool := (getThreadPtr callB.2.1 callB.1 s.pool).1,
             handedB := (getThreadPtr callB.2.1 callB.1 s.pool).2 }
  | RaceStep.startB =>
    match s.handedB with
    | some ptr => { s with pool := startPtr callB.1 callB.2.2 ptr s.pool }
    | none => s

/-- Two concurrent calls of `run` on pool `p`, their steps taken in the given order. -/
def raceExec (callA callB : Int × String × WorkerMethod) (p : ThreadPool)
    (steps : List RaceStep) : RaceState :=
  steps.foldl (raceStep callA callB) { pool := p, handedA := none, handedB := none }

/-- The six interleavings of two calls of `run`, each selection before its hand-off. -/
def interleavings : List (List RaceStep) :=
  [[RaceStep.selectA, RaceStep.startA, RaceStep.selectB, RaceStep.startB],
   [RaceStep.selectB, RaceStep.startB, RaceStep.selectA, RaceStep.startA],
   [RaceStep.selectA, RaceStep.selectB, RaceStep.startA, RaceStep.startB],
   [RaceStep.selectA, RaceStep.selectB, RaceStep.startB, RaceStep.startA],
   [RaceStep.selectB, RaceStep.selectA, RaceStep.startA, RaceStep.startB],
   [RaceStep.selectB, RaceStep.selectA, RaceStep.startB, RaceStep.startA]]

/-- Whether the two callers were handed the same worker. -/
def sameWorkerHanded (s : RaceState) : Bool :=
  match s.handedA, s.handedB with
  | some a, some b => a == b
  | _, _ => false

/-- Pool with default capacity 0: `Pool(defaultCapacity=0, maxCapacity=4, idleTimeout=60)`. -/
def agingPool : ThreadPool := ThreadPool.new 0 4 60

/-- Thirty-one dispatches, each task completing before the next dispatch: the first
creates worker 0 and the others reuse it. The thirty-second dispatch is the first call
to trigger the shrink pass. -/
def agingOps : List PoolOp :=
  (List.replicate 31 [PoolOp.run 0 "t" 7, PoolOp.taskDone 1 0]).flatten

/-! ## Auxiliary lemmas -/

open ThreadPool

/-- The loop of `stopAll`: it goes through the whole collection exactly when every
`destroy()` returns, and otherwise stops at the first worker whose `destroy()` does not. -/
theorem stopAllLoop_spec (now : Int) (ts log : List PooledThread) :
    ((stopAllLoop now ts log).2 = none ∧ (stopAllLoop now ts log).1 = log ++ ts ∧
        ∀ t ∈ ts, destroyReturns now t = true) ∨
    (∃ pre t post, ts = pre ++ t :: post ∧ (∀ u ∈ pre, destroyReturns now u = true) ∧
        destroyReturns now t = false ∧
        stopAllLoop now ts log = (log ++ pre, some t)) := by
  induction ts generalizing log with
  | nil => left; simp [stopAllLoop]
  | cons t ts ih =>
    by_cases hr : destroyReturns now t = true
    · simp only [stopAllLoop, hr, if_true]
      rcases ih (destroyThread t log) with ⟨h1, h2, h3⟩ | ⟨pre, u, post, h1, h2, h3, h4⟩
      · left
        refine ⟨h1, ?_, ?_⟩
        · rw [h2]; simp [destroyThread]
        · intro v hv
          rcases List.mem_cons.1 hv with h | h
          · rw [h]; exact hr
          · exact h3 v h
      · right
        refine ⟨t :: pre, u, post, by rw [h1]; rfl, ?_, h3, ?_⟩
        · intro v hv
          rcases List.mem_cons.1 hv with h | h
          · rw [h]; exact hr
          · exact h2 v h
        · rw [h4]; simp [destroyThread]
    · right
      refine ⟨[], t, ts, rfl, by simp, by simpa using hr, ?_⟩
      simp [stopAllLoop, hr]

/-- The two outcomes of `stopAll`. -/
theorem stopAll_cases (now : Int) (p : ThreadPool) :
    (p.stopAll now
        = StopOutcome.returned { p with destroyed := p.destroyed ++ p.mThreads, mThreads := [] } ∧
      ∀ t ∈ p.mThreads, destroyReturns now t = true) ∨
    (∃ pre t post, p.mThreads = pre ++ t :: post ∧ (∀ u ∈ pre, destroyReturns now u = true) ∧
      destroyReturns now t = false ∧
      p.stopAll now = StopOutcome.blocked (p.destroyed ++ pre) t) := by
  unfold stopAll
  rcases stopAllLoop_spec now p.mThreads p.destroyed with ⟨h1, h2, h3⟩ | ⟨pre, t, post, h1, h2, h3, h4⟩
  · left
    refine ⟨?_, h3⟩
    cases hq : stopAllLoop now p.mThreads p.destroyed with
    | mk log r =>
      rw [hq] at h1 h2
      simp only at h1 h2
      subst h1; subst h2
      rfl
  · right
    exact ⟨pre, t, post, h1, h2, h3, by rw [h4]⟩

/-- Pool given by `step` for a `stopAll`: the emptied pool when the call returns, the
pool before the call when it does not. -/
theorem step_stopAll (now : Int) (p : ThreadPool) :
    (opReturns p (PoolOp.stopAll now) = true ∧
      step p (PoolOp.stopAll now)
        = { p with destroyed := p.destroyed ++ p.mThreads, mThreads := [] }) ∨
    (opReturns p (PoolOp.stopAll now) = false ∧ step p (PoolOp.stopAll now) = p) := by
  rcases stopAll_cases now p with ⟨h, _⟩ | ⟨pre, t, post, _, _, _, h⟩
  · left; simp [opReturns, step, h, StopOutcome.hasReturned]
  · right; simp [opReturns, step, h, StopOutcome.hasReturned]

theorem execAll_nil (p : ThreadPool) : execAll p [] = p := rfl

theorem execAll_cons_of_returns (p : ThreadPool) (op : PoolOp) (ops : List PoolOp)
    (h : opReturns p op = true) : execAll p (op :: ops) = execAll (step p op) ops := by
  simp [execAll, h]

theorem execAll_cons_of_blocks (p : ThreadPool) (op : PoolOp) (ops : List PoolOp)
    (h : opReturns p op = false) : execAll p (op :: ops) = p := by
  simp [execAll, h]

theorem classify_eq (now : Int) (T : Nat) (ts a b c : List PooledThread) :
    classify now T ts (a, b, c) =
      (a ++ ts.filter (isFresh now T), b ++ ts.filter (isExpired now T),
        c ++ ts.filter isBusy) := by
  induction ts generalizing a b c with
  | nil => simp [classify]
  | cons t ts ih =>
    by_cases hi : t.isIdle = true
    · by_cases he : t.idleTime now ≥ (T : Int)
      · simp [classify, hi, he, ih, isFresh, isExpired, isBusy]
      · simp [classify, hi, he, ih, isFresh, isExpired, isBusy]
    · simp [classify, hi, ih, isFresh, isExpired, isBusy]

theorem retainLoop_eq (i limit : Nat) (ts a log : List PooledThread) :
    retainLoop i limit ts (a, log) =
      if i < limit then (a ++ ts, log) else (a, log ++ ts) := by
  induction ts generalizing a log with
  | nil => simp [retainLoop]
  | cons t ts ih =>
    by_cases h : i < limit
    · simp [retainLoop, h, ih]
    · simp [retainLoop, h, ih, destroyThread]

theorem filter_three_length (now : Int) (T : Nat) (ts : List PooledThread) :
    (ts.filter (isFresh now T)).length + (ts.filter (isExpired now T)).length
      + (ts.filter isBusy).length = ts.length := by
  induction ts with
  | nil => simp
  | cons t ts ih =>
    by_cases hi : t.isIdle = true
    · by_cases he : t.idleTime now ≥ (T : Int)
      · simp [List.filter_cons, isFresh, isExpired, isBusy, hi, he] at ih ⊢
        omega
      · simp [List.filter_cons, isFresh, isExpired, isBusy, hi, he] at ih ⊢
        omega
    · simp [List.filter_cons, isFresh, isExpired, isBusy, hi] at ih ⊢
      omega

/-- Closed form of the shrink pass. -/
theorem clearUnused_eq (now : Int) (p : ThreadPool) :
    p.clearUnused now =
      if p.mThreads.length ≤ p.mDefaultCapacity then
        { p with mAge := 0, numClears := p.numClears + 1 }
      else if 0 < min (u32 (candidates now p).length) p.mDefaultCapacity then
        { p with mAge := 0, numClears := p.numClears + 1,
                 mThreads := candidates now p ++ p.mThreads.filter isBusy }
      else
        { p with mAge := 0, numClears := p.numClears + 1,
                 mThreads := p.mThreads.filter isBusy,
                 destroyed := p.destroyed ++ candidates now p } := by
  unfold clearUnused
  by_cases h : p.mThreads.length ≤ p.mDefaultCapacity
  · simp [h]
  · simp only [h, if_false, classify_eq, retainLoop_eq, List.nil_append, candidates]
    split <;> rfl

theorem clearUnused_length_le (now : Int) (p : ThreadPool) :
    (p.clearUnused now).mThreads.length ≤ p.mThreads.length := by
  have h3 := filter_three_length now p.mIdleTimeout p.mThreads
  rw [clearUnused_eq]
  split
  · simp
  · split
    · simp only [candidates, List.length_append]; omega
    · simp only []; omega

theorem clearUnused_config (now : Int) (p : ThreadPool) :
    (p.clearUnused now).mMaxCapacity = p.mMaxCapacity ∧
    (p.clearUnused now).mDefaultCapacity = p.mDefaultCapacity ∧
    (p.clearUnused now).mIdleTimeout = p.mIdleTimeout ∧
    (p.clearUnused now).nextId = p.nextId := by
  rw [clearUnused_eq]
  split
  · simp
  · split <;> simp

theorem ageStep_length_le (now : Int) (p : ThreadPool) :
    (p.ageStep now).mThreads.length ≤ p.mThreads.length := by
  unfold ageStep
  simp only []
  split
  · exact clearUnused_length_le now _
  · exact Nat.le_refl _

theorem ageStep_config (now : Int) (p : ThreadPool) :
    (p.ageStep now).mMaxCapacity = p.mMaxCapacity ∧
    (p.ageStep now).mDefaultCapacity = p.mDefaultCapacity ∧
    (p.ageStep now).mIdleTimeout = p.mIdleTimeout ∧
    (p.ageStep now).nextId = p.nextId := by
  unfold ageStep
  simp only []
  split
  · exact clearUnused_config now _
  · simp

theorem updateAt_length (f : PooledThread → PooledThread) (i : Nat) (ts : List PooledThread) :
    (updateAt f i ts).length = ts.length := by
  induction ts generalizing i with
  | nil => simp [updateAt]
  | cons t ts ih => cases i <;> simp [updateAt, ih]

theorem firstIdle_eq_none (ts : List PooledThread) :
    firstIdle ts = none ↔ ∀ t ∈ ts, t.mIdle = false := by
  induction ts with
  | nil => simp [firstIdle]
  | cons t ts ih =>
    by_cases hi : t.mIdle = true
    · simp [firstIdle, PooledThread.isIdle, hi]
    · simp [firstIdle, PooledThread.isIdle, hi, ih]

/-- Closed form of `run` in terms of the pool found by the selection scan. -/
theorem run_eq (name : String) (wm : WorkerMethod) (now : Int) (p : ThreadPool) :
    p.run name wm now =
      match firstIdle (p.ageStep now).mThreads with
      | some i =>
        ({ p.ageStep now with
            mThreads := updateAt (PooledThread.start now wm) i
              (updateAt (PooledThread.setName name) i (p.ageStep now).mThreads) },
          RunResult.ok)
      | none =>
        if (p.ageStep now).mThreads.length ≥ (p.ageStep now).mMaxCapacity then
          (p.ageStep now, RunResult.capacityExceeded)
        else
          ({ p.ageStep now with
              mThreads := updateAt (PooledThread.start now wm) (p.ageStep now).mThreads.length
                ((p.ageStep now).mThreads ++ [createThread (p.ageStep now).nextId name]),
              nextId := (p.ageStep now).nextId + 1 },
            RunResult.ok) := by
  unfold run getThread selectStep
  cases h : firstIdle (p.ageStep now).mThreads with
  | some i => simp
  | none =>
    by_cases hc : (p.ageStep now).mThreads.length ≥ (p.ageStep now).mMaxCapacity
    · simp [hc]
    · simp [hc]

theorem run_length_le (name : String) (wm : WorkerMethod) (now : Int) (p : ThreadPool)
    (h : p.mThreads.length ≤ p.mMaxCapacity) :
    (p.run name wm now).1.mThreads.length ≤ p.mMaxCapacity := by
  have hl := ageStep_length_le now p
  have hc := (ageStep_config now p).1
  rw [run_eq]
  cases hf : firstIdle (p.ageStep now).mThreads with
  | some i => simp only [updateAt_length]; omega
  | none =>
    by_cases hcap : (p.ageStep now).mThreads.length ≥ (p.ageStep now).mMaxCapacity
    · simp only [hcap, if_true]; omega
    · simp only [hcap, if_false, updateAt_length, List.length_append, List.length_singleton]
      omega

theorem run_config (name : String) (wm : WorkerMethod) (now : Int) (p : ThreadPool) :
    (p.run name wm now).1.mMaxCapacity = p.mMaxCapacity ∧
    (p.run name wm now).1.mDefaultCapacity = p.mDefaultCapacity ∧
    (p.run name wm now).1.mIdleTimeout = p.mIdleTimeout := by
  have hc := ageStep_config now p
  rw [run_eq]
  cases hf : firstIdle (p.ageStep now).mThreads with
  | some i => simp only []; tauto
  | none =>
    by_cases hcap : (p.ageStep now).mThreads.length ≥ (p.ageStep now).mMaxCapacity
    · simp only [hcap, if_true]; tauto
    · simp only [hcap, if_false]; tauto

theorem step_config (p : ThreadPool) (op : PoolOp) :
    (step p op).mMaxCapacity = p.mMaxCapacity ∧
    (step p op).mDefaultCapacity = p.mDefaultCapacity ∧
    (step p op).mIdleTimeout = p.mIdleTimeout := by
  cases op with
  | run now name wm => exact run_config name wm now p
  | clearUnused now => have h := clearUnused_config now p; simp only [step]; tauto
  | stopAll now =>
    rcases step_stopAll now p with ⟨_, h⟩ | ⟨_, h⟩ <;> rw [h] <;> exact ⟨rfl, rfl, rfl⟩
  | taskDone now id => simp [step, taskDone]

theorem step_length_le (p : ThreadPool) (op : PoolOp)
    (h : p.mThreads.length ≤ p.mMaxCapacity) :
    (step p op).mThreads.length ≤ p.mMaxCapacity := by
  cases op with
  | run now name wm => exact run_length_le name wm now p h
  | clearUnused now => have h2 := clearUnused_length_le now p; simp only [step]; omega
  | stopAll now =>
    rcases step_stopAll now p with ⟨_, h2⟩ | ⟨_, h2⟩ <;> rw [h2]
    · simp
    · exact h
  | taskDone now id => simp [step, taskDone]; exact h

/-- A property kept by every event holds after every sequence of events. -/
theorem execAll_invariant (P : ThreadPool → Prop)
    (hstep : ∀ (q : ThreadPool) (op : PoolOp), P q → P (step q op))
    (p : ThreadPool) (ops : List PoolOp) (h : P p) : P (execAll p ops) := by
  induction ops generalizing p with
  | nil => exact h
  | cons op ops ih =>
    by_cases hr : opReturns p op = true
    · rw [execAll_cons_of_returns p op ops hr]
      exact ih (step p op) (hstep p op h)
    · rw [execAll_cons_of_blocks p op ops (by simpa using hr)]
      exact h

theorem execAll_capacity (p : ThreadPool) (ops : List PoolOp)
    (h : p.mThreads.length ≤ p.mMaxCapacity) :
    (execAll p ops).mThreads.length ≤ p.mMaxCapacity ∧
    (execAll p ops).mMaxCapacity = p.mMaxCapacity ∧
    (execAll p ops).mDefaultCapacity = p.mDefaultCapacity ∧
    (execAll p ops).mIdleTimeout = p.mIdleTimeout := by
  refine execAll_invariant
    (fun q => q.mThreads.length ≤ p.mMaxCapacity ∧ q.mMaxCapacity = p.mMaxCapacity ∧
      q.mDefaultCapacity = p.mDefaultCapacity ∧ q.mIdleTimeout = p.mIdleTimeout)
    ?_ p ops ⟨h, rfl, rfl, rfl⟩
  intro q op hq
  have hc := step_config q op
  have hl := step_length_le q op (by rw [hq.2.1]; exact hq.1)
  refine ⟨by rw [← hq.2.1]; exact hl, ?_, ?_, ?_⟩
  · rw [hc.1]; exact hq.2.1
  · rw [hc.2.1]; exact hq.2.2.1
  · rw [hc.2.2]; exact hq.2.2.2

theorem u32_lt (n : Nat) : u32 n < 4294967296 := by
  unfold u32; omega

theorem u32_of_lt (n : Nat) (h : n < 4294967296) : u32 n = n := by
  unfold u32; omega

theorem run_fails_iff (name : String) (wm : WorkerMethod) (now : Int) (p : ThreadPool) :
    (p.run name wm now).2 = RunResult.capacityExceeded ↔
      (∀ t ∈ (p.ageStep now).mThreads, t.mIdle = false) ∧
        p.mMaxCapacity ≤ (p.ageStep now).mThreads.length := by
  have hc := (ageStep_config now p).1
  rw [run_eq]
  cases hf : firstIdle (p.ageStep now).mThreads with
  | some i =>
    have hne : ¬ ∀ t ∈ (p.ageStep now).mThreads, t.mIdle = false := by
      rw [← firstIdle_eq_none, hf]; simp
    simp [hne]
  | none =>
    have hall := (firstIdle_eq_none _).1 hf
    by_cases hcap : (p.ageStep now).mThreads.length ≥ (p.ageStep now).mMaxCapacity
    · simp only [hcap, if_true, true_iff]
      exact ⟨hall, by omega⟩
    · simp only [hcap, if_false]
      constructor
      · intro h; cases h
      · intro h; omega

theorem run_fails_state (name : String) (wm : WorkerMethod) (now : Int) (p : ThreadPool)
    (h : (p.run name wm now).2 = RunResult.capacityExceeded) :
    (p.run name wm now).1 = p.ageStep now := by
  rw [run_eq] at h ⊢
  cases hf : firstIdle (p.ageStep now).mThreads with
  | some i => rw [hf] at h; cases h
  | none =>
    rw [hf] at h
    by_cases hcap : (p.ageStep now).mThreads.length ≥ (p.ageStep now).mMaxCapacity
    · simp only [hcap, if_true]
    · simp only [hcap, if_false] at h; cases h

theorem three_way_perm (now : Int) (T : Nat) (ts : List PooledThread) :
    List.Perm ts (ts.filter (isFresh now T) ++ ts.filter (isExpired now T) ++ ts.filter isBusy) := by
  induction ts with
  | nil => simp
  | cons t ts ih =>
    by_cases hi : t.isIdle = true
    · by_cases he : t.idleTime now ≥ (T : Int)
      · simp only [List.filter_cons, isFresh, isExpired, isBusy, hi, he, decide_True, decide_False,
          Bool.not_true, Bool.and_false, Bool.and_true, Bool.true_and, Bool.false_eq_true,
          if_true, if_false, Bool.not_false] at ih ⊢
        rw [List.append_assoc]
        refine List.Perm.trans (List.Perm.cons t ih) ?_
        rw [List.append_assoc]
        exact (List.perm_middle).symm
      · simp only [List.filter_cons, isFresh, isExpired, isBusy, hi, he, decide_True, decide_False,
          Bool.not_true, Bool.and_false, Bool.and_true, Bool.true_and, Bool.false_eq_true,
          if_true, if_false, Bool.not_false] at ih ⊢
        exact List.Perm.cons t ih
    · simp only [List.filter_cons, isFresh, isExpired, isBusy, hi, decide_True, decide_False,
          Bool.not_true, Bool.and_false, Bool.and_true, Bool.true_and, Bool.false_and, Bool.false_eq_true,
          if_true, if_false, Bool.not_false] at ih ⊢
      refine List.Perm.trans (List.Perm.cons t ih) ?_
      exact (List.perm_middle).symm

theorem candidates_idle (now : Int) (p : ThreadPool) :
    ∀ t ∈ candidates now p, t.isIdle = true := by
  intro t ht
  simp only [candidates, List.mem_append, List.mem_filter, isFresh, isExpired,
    Bool.and_eq_true] at ht
  rcases ht with h | h
  · exact h.2.1
  · exact h.2.1

theorem filter_idle_candidates (now : Int) (p : ThreadPool) :
    (candidates now p).filter (fun t => t.isIdle) = candidates now p :=
  List.filter_eq_self.2 (candidates_idle now p)

theorem filter_idle_busy (ts : List PooledThread) :
    (ts.filter isBusy).filter (fun t => t.isIdle) = [] := by
  induction ts with
  | nil => simp
  | cons t ts ih =>
    by_cases hi : t.isIdle = true
    · simp [List.filter_cons, isBusy, hi, ih]
    · simp [List.filter_cons, isBusy, hi, ih]

/-- The two outcomes of a shrink pass that does not return early. -/
theorem clearUnused_cases (now : Int) (p : ThreadPool)
    (h : p.mDefaultCapacity < p.mThreads.length) :
    ((p.clearUnused now).mThreads = candidates now p ++ p.mThreads.filter isBusy ∧
      (p.clearUnused now).destroyed = p.destroyed ∧
      0 < min (u32 (candidates now p).length) p.mDefaultCapacity) ∨
    ((p.clearUnused now).mThreads = p.mThreads.filter isBusy ∧
      (p.clearUnused now).destroyed = p.destroyed ++ candidates now p ∧
      min (u32 (candidates now p).length) p.mDefaultCapacity = 0) := by
  rw [clearUnused_eq]
  have h1 : ¬ p.mThreads.length ≤ p.mDefaultCapacity := by omega
  simp only [h1, if_false]
  by_cases h2 : 0 < min (u32 (candidates now p).length) p.mDefaultCapacity
  · left; simp only [h2, if_true]; exact ⟨trivial, trivial, trivial⟩
  · right; simp only [h2, if_false]; exact ⟨trivial, trivial, by omega⟩

theorem clearUnused_small (now : Int) (p : ThreadPool)
    (h : p.mThreads.length ≤ p.mDefaultCapacity) :
    (p.clearUnused now).mThreads = p.mThreads ∧
      (p.clearUnused now).destroyed = p.destroyed := by
  rw [clearUnused_eq]
  simp [h]

theorem newlyDestroyed_of_append (p q : ThreadPool) (xs : List PooledThread)
    (h : q.destroyed = p.destroyed ++ xs) : newlyDestroyed p q = xs := by
  simp [newlyDestroyed, h]

/-- Summary of the shrink pass in terms of the workers it hands to `destroyThread`. -/
theorem clearUnused_summary (now : Int) (p : ThreadPool) :
    (p.clearUnused now).destroyed = p.destroyed ++ newlyDestroyed p (p.clearUnused now) ∧
    ((p.clearUnused now).mThreads = p.mThreads ∧ newlyDestroyed p (p.clearUnused now) = [] ∧
        p.mThreads.length ≤ p.mDefaultCapacity
      ∨ (p.clearUnused now).mThreads = candidates now p ++ p.mThreads.filter isBusy ∧
        newlyDestroyed p (p.clearUnused now) = [] ∧ p.mDefaultCapacity < p.mThreads.length
      ∨ (p.clearUnused now).mThreads = p.mThreads.filter isBusy ∧
        newlyDestroyed p (p.clearUnused now) = candidates now p ∧
        p.mDefaultCapacity < p.mThreads.length) := by
  by_cases h : p.mThreads.length ≤ p.mDefaultCapacity
  · have hs := clearUnused_small now p h
    have hn := newlyDestroyed_of_append p (p.clearUnused now) [] (by simp [hs.2])
    exact ⟨by rw [hn, hs.2]; simp, Or.inl ⟨hs.1, hn, h⟩⟩
  · have h1 : p.mDefaultCapacity < p.mThreads.length := by omega
    rcases clearUnused_cases now p h1 with ⟨ht, hd, _⟩ | ⟨ht, hd, _⟩
    · have hn := newlyDestroyed_of_append p (p.clearUnused now) [] (by simp [hd])
      exact ⟨by rw [hn, hd]; simp, Or.inr (Or.inl ⟨ht, hn, h1⟩)⟩
    · have hn := newlyDestroyed_of_append p (p.clearUnused now) _ hd
      exact ⟨by rw [hn, hd], Or.inr (Or.inr ⟨ht, hn, h1⟩)⟩

theorem clearUnused_perm (now : Int) (p : ThreadPool) :
    List.Perm p.mThreads ((p.clearUnused now).mThreads ++ newlyDestroyed p (p.clearUnused now)) := by
  have h3 := three_way_perm now p.mIdleTimeout p.mThreads
  rcases (clearUnused_summary now p).2 with ⟨ht, hn, _⟩ | ⟨ht, hn, _⟩ | ⟨ht, hn, _⟩
  · rw [ht, hn]; simp
  · rw [ht, hn, List.append_nil]; exact h3
  · rw [ht, hn]
    refine List.Perm.trans h3 ?_
    exact List.perm_append_comm

theorem firstIdle_some (ts : List PooledThread) (i : Nat) (h : firstIdle ts = some i) :
    ∃ w, ts[i]? = some w ∧ w.isIdle = true ∧
      (∀ j u, j < i → ts[j]? = some u → u.isIdle = false) ∧
      ∀ f : PooledThread → PooledThread,
        updateAt f i ts = ts.take i ++ [f w] ++ ts.drop (i + 1) := by
  induction ts generalizing i with
  | nil => simp [firstIdle] at h
  | cons t ts ih =>
    by_cases hi : t.isIdle = true
    · simp only [firstIdle, hi, if_true, Option.some.injEq] at h
      subst h
      exact ⟨t, by simp, hi, by intro j u hj; omega, by intro f; simp [updateAt]⟩
    · simp only [firstIdle, hi, Bool.false_eq_true, if_false, Option.map_eq_some'] at h
      obtain ⟨k, hk, rfl⟩ := h
      obtain ⟨w, hw, hwi, hbefore, hupd⟩ := ih k hk
      refine ⟨w, by simpa using hw, hwi, ?_, ?_⟩
      · intro j u hj hu
        cases j with
        | zero =>
          simp only [List.getElem?_cons_zero, Option.some.injEq] at hu
          subst hu
          simpa using hi
        | succ j =>
          simp only [List.getElem?_cons_succ] at hu
          exact hbefore j u (by omega) hu
      · intro f
        simp [updateAt, hupd f]

theorem firstIdle_exists (ts : List PooledThread) (h : ∃ t ∈ ts, t.isIdle = true) :
    ∃ i, firstIdle ts = some i := by
  cases hf : firstIdle ts with
  | some i => exact ⟨i, rfl⟩
  | none =>
    obtain ⟨t, ht, hi⟩ := h
    have := (firstIdle_eq_none ts).1 hf t ht
    simp [PooledThread.isIdle, this] at hi

theorem updateAt_updateAt (f g : PooledThread → PooledThread) (i : Nat) (ts : List PooledThread) :
    updateAt g i (updateAt f i ts) = updateAt (fun t => g (f t)) i ts := by
  induction ts generalizing i with
  | nil => simp [updateAt]
  | cons t ts ih => cases i <;> simp [updateAt, ih]

theorem mem_candidates_of_idle (now : Int) (p : ThreadPool) (t : PooledThread)
    (ht : t ∈ p.mThreads) (hi : t.isIdle = true) : t ∈ candidates now p := by
  simp only [candidates, List.mem_append, List.mem_filter, isFresh, isExpired, hi,
    Bool.true_and]
  by_cases he : t.idleTime now ≥ (p.mIdleTimeout : Int)
  · right; exact ⟨ht, by simpa using he⟩
  · left; exact ⟨ht, by simpa using he⟩

theorem candidates_length_le (now : Int) (p : ThreadPool) :
    (candidates now p).length ≤ p.mThreads.length := by
  have h3 := filter_three_length now p.mIdleTimeout p.mThreads
  simp only [candidates, List.length_append]
  omega

/-- With a positive default capacity and an idle worker present, the shrink pass
destroys nothing and keeps every worker. -/
theorem clearUnused_keeps_all (now : Int) (p : ThreadPool)
    (hD : 0 < p.mDefaultCapacity) (hlen : p.mThreads.length < 4294967296)
    (hidle : ∃ t ∈ p.mThreads, t.isIdle = true) :
    (p.clearUnused now).destroyed = p.destroyed ∧
    List.Perm p.mThreads (p.clearUnused now).mThreads := by
  by_cases h : p.mThreads.length ≤ p.mDefaultCapacity
  · have hs := clearUnused_small now p h
    rw [hs.1, hs.2]
    exact ⟨rfl, List.Perm.refl _⟩
  · rcases clearUnused_cases now p (by omega) with ⟨ht, hd, _⟩ | ⟨_, _, hmin⟩
    · rw [ht, hd]
      exact ⟨rfl, three_way_perm now p.mIdleTimeout p.mThreads⟩
    · exfalso
      obtain ⟨t, ht, hi⟩ := hidle
      have hmem := mem_candidates_of_idle now p t ht hi
      have hpos : 0 < (candidates now p).length := List.length_pos_of_mem hmem
      have hle := candidates_length_le now p
      have hu : u32 (candidates now p).length = (candidates now p).length :=
        u32_of_lt _ (by omega)
      rw [hu] at hmin
      omega

theorem ageStep_keeps_all (now : Int) (p : ThreadPool)
    (hD : 0 < p.mDefaultCapacity) (hlen : p.mThreads.length < 4294967296)
    (hidle : ∃ t ∈ p.mThreads, t.isIdle = true) :
    (p.ageStep now).destroyed = p.destroyed ∧
    List.Perm p.mThreads (p.ageStep now).mThreads ∧
    (u32 (p.mAge + 1) ≠ 32 → (p.ageStep now).mThreads = p.mThreads) := by
  unfold ageStep
  simp only []
  split
  · rename_i h32
    have := clearUnused_keeps_all now { p with mAge := u32 (p.mAge + 1) } hD hlen hidle
    exact ⟨this.1, this.2, fun hne => absurd h32 hne⟩
  · exact ⟨rfl, List.Perm.refl _, fun _ => rfl⟩

/-- The three possible effects of the first part of `getThread` on the collection. -/
theorem ageStep_summary (now : Int) (p : ThreadPool) :
    ((p.ageStep now).mThreads = p.mThreads ∧ (p.ageStep now).destroyed = p.destroyed) ∨
    ((p.ageStep now).mThreads = candidates now p ++ p.mThreads.filter isBusy ∧
      (p.ageStep now).destroyed = p.destroyed ∧
      0 < min (u32 (candidates now p).length) p.mDefaultCapacity) ∨
    ((p.ageStep now).mThreads = p.mThreads.filter isBusy ∧
      (p.ageStep now).destroyed = p.destroyed ++ candidates now p) := by
  unfold ageStep
  simp only []
  split
  · by_cases h : p.mThreads.length ≤ p.mDefaultCapacity
    · left
      exact clearUnused_small now { p with mAge := u32 (p.mAge + 1) } h
    · rcases clearUnused_cases now { p with mAge := u32 (p.mAge + 1) } (by simpa using h) with
        ⟨ht, hd, hm⟩ | ⟨ht, hd, _⟩
      · right; left; exact ⟨ht, hd, hm⟩
      · right; right; exact ⟨ht, hd⟩
  · left; exact ⟨rfl, rfl⟩

theorem candidates_nil_of_all_busy (now : Int) (p : ThreadPool)
    (h : ∀ t ∈ p.mThreads, t.mIdle = false) : candidates now p = [] := by
  simp only [candidates, List.append_eq_nil, List.filter_eq_nil_iff, isFresh, isExpired,
    PooledThread.isIdle]
  constructor
  · intro t ht; simp [h t ht]
  · intro t ht; simp [h t ht]

theorem filter_busy_of_all_busy (ts : List PooledThread)
    (h : ∀ t ∈ ts, t.mIdle = false) : ts.filter isBusy = ts := by
  apply List.filter_eq_self.2
  intro t ht
  simp [isBusy, PooledThread.isIdle, h t ht]

/-- When every owned worker is busy, the first part of `getThread` leaves the collection
and the log of destroyed workers as they are. -/
theorem ageStep_all_busy (now : Int) (p : ThreadPool)
    (h : ∀ t ∈ p.mThreads, t.mIdle = false) :
    (p.ageStep now).mThreads = p.mThreads ∧ (p.ageStep now).destroyed = p.destroyed := by
  have hc := candidates_nil_of_all_busy now p h
  have hb := filter_busy_of_all_busy p.mThreads h
  rcases ageStep_summary now p with h1 | ⟨ht, hd, _⟩ | ⟨ht, hd⟩
  · exact h1
  · rw [ht, hd, hc, hb]; exact ⟨rfl, rfl⟩
  · rw [ht, hd, hc, hb]; exact ⟨rfl, by simp⟩

/-- A failing `run` on a pool within its capacity found every worker busy beforehand. -/
theorem fail_all_busy (name : String) (wm : WorkerMethod) (now : Int) (p : ThreadPool)
    (hcap : p.mThreads.length ≤ p.mMaxCapacity)
    (hfail : (p.run name wm now).2 = RunResult.capacityExceeded) :
    ∀ t ∈ p.mThreads, t.mIdle = false := by
  obtain ⟨hall, hmax⟩ := (run_fails_iff name wm now p).1 hfail
  intro t ht
  by_contra hne
  have hi : t.isIdle = true := by simpa [PooledThread.isIdle] using hne
  have hmem := mem_candidates_of_idle now p t ht hi
  rcases ageStep_summary now p with ⟨h1, _⟩ | ⟨h1, _, _⟩ | ⟨h1, _⟩
  · rw [h1] at hall; exact hne (hall t ht)
  · rw [h1] at hall; exact hne (hall t (List.mem_append_left _ hmem))
  · rw [h1] at hmax
    have h3 := filter_three_length now p.mIdleTimeout p.mThreads
    have hpos : 0 < (candidates now p).length := List.length_pos_of_mem hmem
    simp only [candidates, List.length_append] at hpos
    omega

theorem ageStep_counters (now : Int) (p : ThreadPool) :
    (p.ageStep now).mAge = (if u32 (p.mAge + 1) = 32 then 0 else u32 (p.mAge + 1)) ∧
    (p.ageStep now).numClears =
      (if u32 (p.mAge + 1) = 32 then p.numClears + 1 else p.numClears) := by
  unfold ageStep
  simp only []
  split
  · rw [clearUnused_eq]
    split
    · exact ⟨rfl, rfl⟩
    · split <;> exact ⟨rfl, rfl⟩
  · exact ⟨rfl, rfl⟩

theorem run_counters (name : String) (wm : WorkerMethod) (now : Int) (p : ThreadPool) :
    (p.run name wm now).1.mAge = (p.ageStep now).mAge ∧
    (p.run name wm now).1.numClears = (p.ageStep now).numClears := by
  rw [run_eq]
  cases hf : firstIdle (p.ageStep now).mThreads with
  | some i => exact ⟨rfl, rfl⟩
  | none =>
    by_cases hcap : (p.ageStep now).mThreads.length ≥ (p.ageStep now).mMaxCapacity
    · simp only [hcap, if_true]; exact ⟨trivial, trivial⟩
    · simp only [hcap, if_false]; exact ⟨trivial, trivial⟩

/-- Effect of one `run` on the dispatch counter and on the count of shrink passes, for a
pool whose counter and count agree with a number `c` of earlier calls. -/
theorem run_counters_of (name : String) (wm : WorkerMethod) (now : Int) (p : ThreadPool)
    (c : Nat) (hage : p.mAge = c % 32) (hcl : p.numClears = c / 32) :
    (p.run name wm now).1.mAge = (c + 1) % 32 ∧
    (p.run name wm now).1.numClears = (c + 1) / 32 := by
  have hr := run_counters name wm now p
  have ha := ageStep_counters now p
  rw [hr.1, hr.2, ha.1, ha.2]
  have hlt : p.mAge + 1 < 4294967296 := by omega
  rw [u32_of_lt _ hlt]
  by_cases h32 : p.mAge + 1 = 32
  · simp only [h32, if_true]; omega
  · simp only [h32, if_false]; omega

theorem step_counters_of (p : ThreadPool) (op : PoolOp) (hno : op.isClearUnused = false)
    (c : Nat) (hage : p.mAge = c % 32) (hcl : p.numClears = c / 32) :
    (step p op).mAge = (c + countRuns [op]) % 32 ∧
    (step p op).numClears = (c + countRuns [op]) / 32 := by
  cases op with
  | run now name wm => exact run_counters_of name wm now p c hage hcl
  | clearUnused now => simp [PoolOp.isClearUnused] at hno
  | stopAll now =>
    have hc : countRuns [PoolOp.stopAll now] = 0 := rfl
    rw [hc, Nat.add_zero]
    rcases step_stopAll now p with ⟨_, h⟩ | ⟨_, h⟩ <;> rw [h] <;> exact ⟨hage, hcl⟩
  | taskDone now id => simpa [step, taskDone, countRuns, PoolOp.isRun] using And.intro hage hcl

theorem countRuns_cons (op : PoolOp) (ops : List PoolOp) :
    countRuns (op :: ops) = countRuns [op] + countRuns ops := by
  cases op <;> simp [countRuns, PoolOp.isRun, List.filter_cons, Nat.add_comm]

theorem execAll_counters_of (p : ThreadPool) (ops : List PoolOp)
    (hno : ∀ op ∈ ops, op.isClearUnused = false)
    (c : Nat) (hage : p.mAge = c % 32) (hcl : p.numClears = c / 32) :
    (execAll p ops).mAge = (c + countRuns (executedOps p ops)) % 32 ∧
    (execAll p ops).numClears = (c + countRuns (executedOps p ops)) / 32 := by
  induction ops generalizing p c with
  | nil => simpa [execAll, executedOps, countRuns] using And.intro hage hcl
  | cons op ops ih =>
    by_cases hr : opReturns p op = true
    · have hs := step_counters_of p op (hno op (List.mem_cons_self _ _)) c hage hcl
      have := ih (step p op) (fun o ho => hno o (List.mem_cons_of_mem _ ho))
        (c + countRuns [op]) hs.1 hs.2
      have he : executedOps p (op :: ops) = op :: executedOps (step p op) ops := by
        simp [executedOps, hr]
      rw [execAll_cons_of_returns p op ops hr, he, countRuns_cons, ← Nat.add_assoc]
      exact this
    · have hr2 : opReturns p op = false := by simpa using hr
      have he : executedOps p (op :: ops) = [] := by simp [executedOps, hr2]
      have hc : countRuns ([] : List PoolOp) = 0 := rfl
      rw [execAll_cons_of_blocks p op ops hr2, he, hc, Nat.add_zero]
      exact ⟨hage, hcl⟩

theorem updateAt_append_last (f : PooledThread → PooledThread) (ts : List PooledThread)
    (x : PooledThread) : updateAt f ts.length (ts ++ [x]) = ts ++ [f x] := by
  induction ts with
  | nil => simp [updateAt]
  | cons t ts ih => simp [updateAt, ih]

/-- A `run` on a pool whose workers are all busy and which is below its maximum capacity
creates one worker, pushes it at the back and starts it. -/
theorem run_all_busy (name : String) (wm : WorkerMethod) (now : Int) (p : ThreadPool)
    (hbusy : ∀ t ∈ p.mThreads, t.mIdle = false) (hlt : p.mThreads.length < p.mMaxCapacity) :
    (p.run name wm now).2 = RunResult.ok ∧
    (p.run name wm now).1.mThreads = p.mThreads ++ [startedWorker p.nextId (now, name, wm)] ∧
    (p.run name wm now).1.nextId = p.nextId + 1 ∧
    (p.run name wm now).1.destroyed = p.destroyed := by
  have hage := ageStep_all_busy now p hbusy
  have hcfg := ageStep_config now p
  have hnone : firstIdle (p.ageStep now).mThreads = none := by
    rw [firstIdle_eq_none, hage.1]; exact hbusy
  have hcap : ¬ (p.ageStep now).mThreads.length ≥ (p.ageStep now).mMaxCapacity := by
    rw [hage.1, hcfg.1]; omega
  rw [run_eq, hnone]
  simp only [hcap, if_false]
  refine ⟨trivial, ?_, ?_, hage.2⟩
  · rw [updateAt_append_last, hage.1, hcfg.2.2.2]; rfl
  · rw [hcfg.2.2.2]

theorem growth_general (calls : List (Int × String × WorkerMethod)) (p : ThreadPool)
    (hbusy : ∀ t ∈ p.mThreads, t.mIdle = false)
    (hlen : p.mThreads.length + calls.length ≤ p.mMaxCapacity) :
    (execAll p (calls.map callOp)).mThreads =
      p.mThreads ++ (calls.enumFrom p.nextId).map (fun ic => startedWorker ic.1 ic.2) ∧
    (execAll p (calls.map callOp)).nextId = p.nextId + calls.length ∧
    (execAll p (calls.map callOp)).destroyed = p.destroyed ∧
    (execAll p (calls.map callOp)).mMaxCapacity = p.mMaxCapacity := by
  induction calls generalizing p with
  | nil => simp [execAll]
  | cons c calls ih =>
    simp only [List.length_cons] at hlen
    have hr := run_all_busy c.2.1 c.2.2 c.1 p hbusy (by omega)
    have hcfg := run_config c.2.1 c.2.2 c.1 p
    have hbusy2 : ∀ t ∈ (p.run c.2.1 c.2.2 c.1).1.mThreads, t.mIdle = false := by
      intro t ht
      rw [hr.2.1, List.mem_append, List.mem_singleton] at ht
      rcases ht with h | h
      · exact hbusy t h
      · rw [h]; rfl
    have hlen2 : (p.run c.2.1 c.2.2 c.1).1.mThreads.length + calls.length
        ≤ (p.run c.2.1 c.2.2 c.1).1.mMaxCapacity := by
      rw [hr.2.1, hcfg.1, List.length_append, List.length_singleton]; omega
    have := ih (p.run c.2.1 c.2.2 c.1).1 hbusy2 hlen2
    have hexec : execAll p ((c :: calls).map callOp)
        = execAll (p.run c.2.1 c.2.2 c.1).1 (calls.map callOp) := by
      rw [List.map_cons, execAll_cons_of_returns p (callOp c) _ rfl]
      rfl
    rw [hexec]
    rw [this.1, this.2.1, this.2.2.1, this.2.2.2, hr.2.1, hr.2.2.1, hr.2.2.2, hcfg.1]
    refine ⟨?_, ?_, rfl, rfl⟩
    · simp [List.enumFrom_cons]
    · simp only [List.length_cons]; omega

theorem numActive_all_busy (ts : List PooledThread) (acc : Nat)
    (hbusy : ∀ t ∈ ts, t.mIdle = false) (hlt : acc + ts.length < 4294967296) :
    ts.foldl (fun numActive t => if !t.isIdle then u32 (numActive + 1) else numActive) acc
      = acc + ts.length := by
  induction ts generalizing acc with
  | nil => simp
  | cons t ts ih =>
    simp only [List.length_cons] at hlt
    have ht : t.isIdle = false := hbusy t (List.mem_cons_self _ _)
    simp only [List.foldl_cons, ht, Bool.not_false, if_true, List.length_cons]
    rw [u32_of_lt _ (by omega), ih (acc + 1) (fun u hu => hbusy u (List.mem_cons_of_mem _ hu))
      (by omega)]
    omega

theorem numAvailable_all_busy (ts : List PooledThread) (acc : Nat)
    (hbusy : ∀ t ∈ ts, t.mIdle = false) :
    ts.foldl (fun numAvailable t => if t.isIdle then u32 (numAvailable + 1) else numAvailable) acc
      = acc := by
  induction ts generalizing acc with
  | nil => simp
  | cons t ts ih =>
    have ht : t.isIdle = false := hbusy t (List.mem_cons_self _ _)
    simp only [List.foldl_cons, ht, Bool.false_eq_true, if_false]
    exact ih acc (fun u hu => hbusy u (List.mem_cons_of_mem _ hu))

theorem updateAt_ids (f : PooledThread → PooledThread) (hf : ∀ t, (f t).id = t.id)
    (i : Nat) (ts : List PooledThread) :
    (updateAt f i ts).map (fun t => t.id) = ts.map (fun t => t.id) := by
  induction ts generalizing i with
  | nil => simp [updateAt]
  | cons t ts ih => cases i <;> simp [updateAt, ih, hf]

theorem ageStep_subperm (now : Int) (p : ThreadPool) :
    ∃ xs, List.Perm p.mThreads ((p.ageStep now).mThreads ++ xs) := by
  have h3 := three_way_perm now p.mIdleTimeout p.mThreads
  rcases ageStep_summary now p with ⟨h1, _⟩ | ⟨h1, _, _⟩ | ⟨h1, _⟩
  · exact ⟨[], by rw [h1]; simp⟩
  · exact ⟨[], by rw [h1, List.append_nil]; exact h3⟩
  · refine ⟨candidates now p, ?_⟩
    rw [h1]
    exact List.Perm.trans h3 List.perm_append_comm

theorem ageStep_distinct (now : Int) (p : ThreadPool) (h : DistinctWorkers p) :
    DistinctWorkers (p.ageStep now) := by
  obtain ⟨xs, hperm⟩ := ageStep_subperm now p
  have hp : List.Perm (ownedIds p)
      (ownedIds (p.ageStep now) ++ xs.map (fun t => t.id)) := by
    have := List.Perm.map (fun t : PooledThread => t.id) hperm
    simpa [ownedIds] using this
  have hnd := (List.Perm.nodup_iff hp).1 h.1
  refine ⟨(List.nodup_append.1 hnd).1, ?_⟩
  intro n hn
  rw [(ageStep_config now p).2.2.2]
  exact h.2 n ((List.Perm.mem_iff hp).2 (List.mem_append_left _ hn))

theorem run_distinct (name : String) (wm : WorkerMethod) (now : Int) (p : ThreadPool)
    (h : DistinctWorkers p) : DistinctWorkers (p.run name wm now).1 := by
  have ha := ageStep_distinct now p h
  rw [run_eq]
  cases hf : firstIdle (p.ageStep now).mThreads with
  | some i =>
    have hids : ownedIds { p.ageStep now with
        mThreads := updateAt (PooledThread.start now wm) i
          (updateAt (PooledThread.setName name) i (p.ageStep now).mThreads) }
        = ownedIds (p.ageStep now) := by
      simp only [ownedIds]
      rw [updateAt_ids (PooledThread.start now wm) (fun _ => rfl),
        updateAt_ids (PooledThread.setName name) (fun _ => rfl)]
    exact ⟨by rw [hids]; exact ha.1, by rw [hids]; exact ha.2⟩
  | none =>
    by_cases hcap : (p.ageStep now).mThreads.length ≥ (p.ageStep now).mMaxCapacity
    · simp only [hcap, if_true]; exact ha
    · simp only [hcap, if_false]
      have hids : ownedIds { p.ageStep now with
          mThreads := updateAt (PooledThread.start now wm) (p.ageStep now).mThreads.length
            ((p.ageStep now).mThreads ++ [createThread (p.ageStep now).nextId name]),
          nextId := (p.ageStep now).nextId + 1 }
          = ownedIds (p.ageStep now) ++ [(p.ageStep now).nextId] := by
        simp only [ownedIds]
        rw [updateAt_ids (PooledThread.start now wm) (fun _ => rfl)]
        simp [createThread, PooledThread.new, PooledThread.initializeThread]
      refine ⟨?_, ?_⟩
      · rw [hids, List.nodup_append]
        refine ⟨ha.1, List.nodup_singleton _, ?_⟩
        intro n hn hn2
        have := ha.2 n hn
        simp only [List.mem_singleton] at hn2
        omega
      · intro n hn
        rw [hids, List.mem_append, List.mem_singleton] at hn
        show n < (p.ageStep now).nextId + 1
        rcases hn with h1 | h1
        · have := ha.2 n h1; omega
        · omega

theorem clearUnused_distinct (now : Int) (p : ThreadPool) (h : DistinctWorkers p) :
    DistinctWorkers (p.clearUnused now) := by
  have hperm := clearUnused_perm now p
  have hp : List.Perm (ownedIds p)
      (ownedIds (p.clearUnused now)
        ++ (newlyDestroyed p (p.clearUnused now)).map (fun t => t.id)) := by
    have := List.Perm.map (fun t : PooledThread => t.id) hperm
    simpa [ownedIds] using this
  have hnd := (List.Perm.nodup_iff hp).1 h.1
  refine ⟨(List.nodup_append.1 hnd).1, ?_⟩
  intro n hn
  rw [(clearUnused_config now p).2.2.2]
  exact h.2 n ((List.Perm.mem_iff hp).2 (List.mem_append_left _ hn))

theorem step_distinct (p : ThreadPool) (op : PoolOp) (h : DistinctWorkers p) :
    DistinctWorkers (step p op) := by
  cases op with
  | run now name wm => exact run_distinct name wm now p h
  | clearUnused now => exact clearUnused_distinct now p h
  | stopAll now =>
    rcases step_stopAll now p with ⟨_, h2⟩ | ⟨_, h2⟩ <;> rw [h2]
    · simp [DistinctWorkers, ownedIds]
    · exact h
  | taskDone now id =>
    have hids : ownedIds (step p (PoolOp.taskDone now id)) = ownedIds p := by
      simp only [step, taskDone, ownedIds, List.map_map]
      apply List.map_congr_left
      intro t _
      simp only [Function.comp]
      split <;> rfl
    exact ⟨by rw [hids]; exact h.1, by rw [hids]; exact h.2⟩

theorem execAll_distinct (p : ThreadPool) (ops : List PoolOp) (h : DistinctWorkers p) :
    DistinctWorkers (execAll p ops) :=
  execAll_invariant DistinctWorkers step_distinct p ops h

/-- In every reachable pool state the owned collection has no repeated worker, holds at
most `maxCapacity` workers, and so fewer than `2^32`. -/
theorem reachable_wellformed (p : ThreadPool) (h : Reachable p) :
    p.mThreads.Nodup ∧ p.mThreads.length ≤ p.mMaxCapacity ∧ p.mThreads.length < 4294967296 := by
  obtain ⟨D, M, T, ops, rfl⟩ := h
  have hd := execAll_distinct (ThreadPool.new D M T) ops
    (by simp [DistinctWorkers, ownedIds, ThreadPool.new])
  have hc := execAll_capacity (ThreadPool.new D M T) ops (by simp [ThreadPool.new])
  have hm : (ThreadPool.new D M T).mMaxCapacity < 4294967296 := u32_lt M
  refine ⟨List.Nodup.of_map _ hd.1, by rw [hc.2.1]; exact hc.1, by omega⟩

/-- A termination signal sent while a task is executing is erased by the critical
section that follows the task: the loop is back at its wait with `mThreadReady` cleared,
and the wake step cannot be taken. -/
theorem signal_erased_while_running (s : WorkerState) (w : WorkerMethod) (now : Int)
    (h : s.phase = LoopPhase.running w) :
    ∃ s2, workerExec s [WorkerEvent.destroySignal, WorkerEvent.loopFinish now] = some s2 ∧
      waitGuard s2 = false ∧ s2.phase = LoopPhase.waiting ∧
      s2.thread.mWorkerMethod = none ∧
      workerStep s2 WorkerEvent.loopWake = none := by
  refine ⟨{ thread := s.thread.destroy.finishTask now, phase := LoopPhase.waiting }, ?_, rfl, rfl,
    rfl, ?_⟩
  · simp [workerExec, workerStep, h]
  · simp [workerStep, waitGuard, PooledThread.finishTask]

/-- A loop blocked at its wait with `mThreadReady` cleared takes no step of its own. -/
theorem blocked_loop_takes_no_step (s : WorkerState) (hp : s.phase = LoopPhase.waiting)
    (hg : waitGuard s = false) (now : Int) :
    workerStep s WorkerEvent.loopWake = none ∧
    workerStep s (WorkerEvent.loopFinish now) = none := by
  simp [workerStep, hp, hg]

theorem clearUnused_age (now : Int) (p : ThreadPool) : (p.clearUnused now).mAge = 0 := by
  rw [clearUnused_eq]
  split
  · rfl
  · split <;> rfl

theorem firstIdle_updateAt (f : PooledThread → PooledThread)
    (hf : ∀ t, (f t).isIdle = t.isIdle) (i : Nat) (ts : List PooledThread) :
    firstIdle (updateAt f i ts) = firstIdle ts := by
  induction ts generalizing i with
  | nil => simp [updateAt]
  | cons t ts ih => cases i <;> simp [updateAt, firstIdle, hf, ih]

theorem firstIdle_append_idle (ts : List PooledThread) (x : PooledThread)
    (h : firstIdle ts = none) (hx : x.isIdle = true) :
    firstIdle (ts ++ [x]) = some ts.length := by
  induction ts with
  | nil => simp [firstIdle, hx]
  | cons t ts ih =>
    by_cases hi : t.isIdle = true
    · simp [firstIdle, hi] at h
    · simp only [firstIdle, hi, Bool.false_eq_true, if_false, Option.map_eq_none'] at h
      simp [firstIdle, hi, ih h]

theorem ageStep_no_shrink (now : Int) (p : ThreadPool) (h : u32 (p.mAge + 1) ≠ 32) :
    p.ageStep now = { p with mAge := u32 (p.mAge + 1) } := by
  simp [ageStep, h]

/-- Pointer handed out by `getThread`, in terms of the scan. -/
theorem getThreadPtr_of_scan (name : String) (now : Int) (p : ThreadPool) :
    (getThreadPtr name now p).2 =
      match firstIdle (p.ageStep now).mThreads with
      | some i => ((p.ageStep now).mThreads.map (fun t => t.id))[i]?
      | none =>
        if (p.ageStep now).mThreads.length ≥ (p.ageStep now).mMaxCapacity then none
        else some (p.ageStep now).nextId := by
  unfold getThreadPtr getThread selectStep
  cases hf : firstIdle (p.ageStep now).mThreads with
  | some i =>
    simp only []
    rw [← List.getElem?_map, updateAt_ids (PooledThread.setName name) (fun _ => rfl)]
  | none =>
    by_cases hcap : (p.ageStep now).mThreads.length ≥ (p.ageStep now).mMaxCapacity
    · simp [hcap]
    · simp [hcap, createThread, PooledThread.new, PooledThread.initializeThread]

/-- Collection left by `getThread`, in terms of the scan. -/
theorem getThreadPtr_pool (name : String) (now : Int) (p : ThreadPool) :
    (getThreadPtr name now p).1 = (p.getThread name now).1 := by
  unfold getThreadPtr
  cases h : p.getThread name now with
  | mk p1 r => cases r <;> rfl

/-- Double dispatch in general: when the selection of one call has handed out a worker
and the selection of a second call runs before the hand-off of the first, without
triggering the shrink pass, the second call is handed the same worker. -/
theorem second_select_same_worker (p : ThreadPool) (nameA nameB : String) (nowA nowB : Int)
    (w : Nat) (hA : (getThreadPtr nameA nowA p).2 = some w)
    (h32 : u32 ((getThreadPtr nameA nowA p).1.mAge + 1) ≠ 32) :
    (getThreadPtr nameB nowB (getThreadPtr nameA nowA p).1).2 = some w := by
  rw [getThreadPtr_pool] at h32 ⊢
  rw [getThreadPtr_of_scan] at hA
  rw [getThreadPtr_of_scan, ageStep_no_shrink nowB _ h32]
  unfold getThread selectStep at h32 ⊢
  cases hf : firstIdle (p.ageStep nowA).mThreads with
  | some i =>
    rw [hf] at hA
    simp only [] at hA ⊢
    rw [firstIdle_updateAt (PooledThread.setName nameA) (fun _ => rfl), hf]
    simp only []
    rw [updateAt_ids (PooledThread.setName nameA) (fun _ => rfl)]
    exact hA
  | none =>
    rw [hf] at hA
    by_cases hcap : (p.ageStep nowA).mThreads.length ≥ (p.ageStep nowA).mMaxCapacity
    · simp [hcap] at hA
    · simp only [hcap, if_false, Option.some.injEq] at hA
      simp only [hcap, if_false]
      rw [firstIdle_append_idle _ (createThread (p.ageStep nowA).nextId nameA) hf rfl]
      simp [hA, createThread, PooledThread.new, PooledThread.initializeThread]

theorem loopRunsOn_blocked (now : Int) (s : WorkerState) (hp : s.phase = LoopPhase.waiting)
    (hg : waitGuard s = false) (fuel : Nat) : loopRunsOn now fuel s = s := by
  cases fuel with
  | zero => rfl
  | succ k => simp [loopRunsOn, hp, workerStep, hg]

theorem loopRunsOn_exited (now : Int) (s : WorkerState) (hp : s.phase = LoopPhase.exited)
    (fuel : Nat) : loopRunsOn now fuel s = s := by
  cases fuel with
  | zero => rfl
  | succ k => simp [loopRunsOn, hp]

theorem loopRunsOn_running (now : Int) (s : WorkerState) (w : WorkerMethod)
    (hp : s.phase = LoopPhase.running w) (fuel : Nat) :
    loopRunsOn now (fuel + 1) s
      = { thread := s.thread.finishTask now, phase := LoopPhase.waiting } := by
  simp only [loopRunsOn, hp, workerStep]
  exact loopRunsOn_blocked now ⟨s.thread.finishTask now, LoopPhase.waiting⟩ rfl rfl fuel

/-- Three steps bring the backing thread to its exit or to a blocked wait: more fuel
changes nothing. -/
theorem loopRunsOn_stable (now : Int) (s : WorkerState) (fuel : Nat) :
    loopRunsOn now (fuel + 3) s = loopRunsOn now 3 s := by
  cases hp : s.phase with
  | exited => rw [loopRunsOn_exited now s hp, loopRunsOn_exited now s hp]
  | running w => rw [loopRunsOn_running now s w hp, loopRunsOn_running now s w hp]
  | waiting =>
    by_cases hg : waitGuard s = true
    · cases hm : s.thread.mWorkerMethod with
      | none =>
        have h1 : ∀ k, loopRunsOn now (k + 1) s = { s with phase := LoopPhase.exited } := by
          intro k
          simp only [loopRunsOn, hp, workerStep, hg, if_true, hm]
          exact loopRunsOn_exited now _ rfl k
        rw [h1, h1]
      | some w =>
        have h1 : ∀ k, loopRunsOn now (k + 2) s
            = { thread := s.thread.finishTask now, phase := LoopPhase.waiting } := by
          intro k
          simp only [loopRunsOn, hp, workerStep, hg, if_true, hm]
          exact loopRunsOn_blocked now ⟨s.thread.finishTask now, LoopPhase.waiting⟩ rfl rfl k
        rw [h1 (fuel + 1), h1 1]
    · have hg2 : waitGuard s = false := by simpa using hg
      rw [loopRunsOn_blocked now s hp hg2, loopRunsOn_blocked now s hp hg2]

/-- The join of `destroy()` returns exactly when the backing thread is not executing a
task at the signalling step. -/
theorem destroyJoins_iff (now : Int) (s : WorkerState) :
    destroyJoins now s = true ↔ ∀ w, s.phase ≠ LoopPhase.running w := by
  unfold destroyJoins
  simp only [workerStep]
  cases hp : s.phase with
  | exited =>
    rw [loopRunsOn_exited now ⟨s.thread.destroy, LoopPhase.exited⟩ rfl]
    simp
  | running w =>
    rw [loopRunsOn_running now ⟨s.thread.destroy, LoopPhase.running w⟩ w rfl 2]
    simp
  | waiting =>
    simp [loopRunsOn, workerStep, waitGuard, PooledThread.destroy]

theorem destroyReturns_iff (now : Int) (t : PooledThread) :
    destroyReturns now t = true ↔ ¬ (t.mIdle = false ∧ ∃ w, t.mWorkerMethod = some w) := by
  unfold destroyReturns
  rw [destroyJoins_iff]
  cases hi : t.mIdle <;> cases hm : t.mWorkerMethod <;> simp [threadPhase, hi, hm]

theorem destroyReturns_of_idle (now : Int) (t : PooledThread) (h : t.isIdle = true) :
    destroyReturns now t = true := by
  rw [destroyReturns_iff]
  intro hc
  simp [PooledThread.isIdle] at h
  simp [h] at hc

/-- Every `destroy()` called by the shrink pass returns. -/
theorem clearUnused_destroys_returning (now now2 : Int) (p : ThreadPool) :
    ∀ t ∈ newlyDestroyed p (p.clearUnused now), destroyReturns now2 t = true := by
  intro t ht
  apply destroyReturns_of_idle
  rcases (clearUnused_summary now p).2 with ⟨_, hn, _⟩ | ⟨_, hn, _⟩ | ⟨_, hn, _⟩
  · rw [hn] at ht; cases ht
  · rw [hn] at ht; cases ht
  · rw [hn] at ht; exact candidates_idle now p t ht

/-- The call `stopAll()` returns exactly when no owned worker is executing a task. -/
theorem stopAll_returns_iff (now : Int) (p : ThreadPool) :
    (p.stopAll now).hasReturned = true ↔ ∀ t ∈ p.mThreads, destroyReturns now t = true := by
  rcases stopAll_cases now p with ⟨h, hall⟩ | ⟨pre, t, post, hsplit, _, hno, h⟩
  · rw [h]; simp [StopOutcome.hasReturned]; exact hall
  · rw [h]
    simp only [StopOutcome.hasReturned, Bool.false_eq_true, false_iff]
    intro hall
    have := hall t (by rw [hsplit]; simp)
    rw [hno] at this
    cases this

/-- Teardown when the call returns: every owned worker has gone through `destroyThread`
in collection order, the collection is empty and the three counters are 0. -/
theorem stopAll_of_returns (now : Int) (p : ThreadPool)
    (h : (p.stopAll now).hasReturned = true) :
    ∃ q, p.stopAll now = StopOutcome.returned q ∧ q.mThreads = [] ∧
      q.destroyed = p.destroyed ++ p.mThreads ∧
      q.getNumAllocated = 0 ∧ q.getNumActive = 0 ∧ q.getNumAvailable = 0 := by
  rcases stopAll_cases now p with ⟨h1, _⟩ | ⟨pre, t, post, _, _, _, h1⟩
  · exact ⟨_, h1, rfl, rfl, rfl, rfl, rfl⟩
  · rw [h1] at h; simp [StopOutcome.hasReturned] at h

theorem ageStep_shrink (now : Int) (p : ThreadPool) (h : u32 (p.mAge + 1) = 32) :
    p.ageStep now = ThreadPool.clearUnused now { p with mAge := 32 } := by
  simp [ageStep, h]

/-! ## Claims -/

/-- C1. Capacity invariant: for every pool configuration and every finite sequence of
`run`, `clearUnused`, `stopAll` calls and task completions applied to a freshly
constructed pool, after each operation (after every initial segment of the sequence)
the number of owned workers, and `getNumAllocated()`, is at most `maxCapacity`; and a
`run` that finds no idle worker with `mThreads.size() >= maxCapacity` at its scan fails,
leaving the pool exactly as the scan found it: no worker is allocated. -/
theorem capacity_invariant (threadCapacity maxCapacity idleTimeout : Nat) (ops : List PoolOp) :
    (∀ k : Nat,
      (execAll (ThreadPool.new threadCapacity maxCapacity idleTimeout) (ops.take k)).mThreads.length
          ≤ (ThreadPool.new threadCapacity maxCapacity idleTimeout).mMaxCapacity ∧
      (execAll (ThreadPool.new threadCapacity maxCapacity idleTimeout) (ops.take k)).getNumAllocated
          ≤ (ThreadPool.new threadCapacity maxCapacity idleTimeout).mMaxCapacity) ∧
    ∀ (name : String) (wm : WorkerMethod) (now : Int),
      (∀ t ∈ ((execAll (ThreadPool.new threadCapacity maxCapacity idleTimeout) ops).ageStep now).mThreads,
          t.mIdle = false) →
      (ThreadPool.new threadCapacity maxCapacity idleTimeout).mMaxCapacity
          ≤ ((execAll (ThreadPool.new threadCapacity maxCapacity idleTimeout) ops).ageStep now).mThreads.length →
      ((execAll (ThreadPool.new threadCapacity maxCapacity idleTimeout) ops).run name wm now).2
          = RunResult.capacityExceeded ∧
      ((execAll (ThreadPool.new threadCapacity maxCapacity idleTimeout) ops).run name wm now).1
          = (execAll (ThreadPool.new threadCapacity maxCapacity idleTimeout) ops).ageStep now := by
  constructor
  · intro k
    have h := execAll_capacity (ThreadPool.new threadCapacity maxCapacity idleTimeout) (ops.take k)
      (by simp [ThreadPool.new])
    refine ⟨h.1, ?_⟩
    have : (execAll (ThreadPool.new threadCapacity maxCapacity idleTimeout) (ops.take k)).getNumAllocated
        ≤ (execAll (ThreadPool.new threadCapacity maxCapacity idleTimeout) (ops.take k)).mThreads.length := by
      unfold getNumAllocated u32
      exact Nat.mod_le _ _
    exact Nat.le_trans this h.1
  · intro name wm now hidle hcap
    have hcfg := execAll_capacity (ThreadPool.new threadCapacity maxCapacity idleTimeout) ops
      (by simp [ThreadPool.new])
    have hf : ((execAll (ThreadPool.new threadCapacity maxCapacity idleTimeout) ops).run name wm now).2
        = RunResult.capacityExceeded := by
      rw [run_fails_iff]
      exact ⟨hidle, by rw [hcfg.2.1]; exact hcap⟩
    exact ⟨hf, run_fails_state name wm now _ hf⟩

/-- Witness of C1: in the scenario pool with four busy workers, a fifth `run` fails and
leaves the four workers in place. -/
theorem capacity_invariant_witness :
    ((execAll scenarioPool fourRuns).run "e" 5 0).2 = RunResult.capacityExceeded ∧
    ((execAll scenarioPool fourRuns).run "e" 5 0).1 = (execAll scenarioPool fourRuns).ageStep 0 :=
  (capacity_invariant 2 4 60 fourRuns).2 "e" 5 0 (by decide) (by decide)

/-- C3. Capacity-exceeded is raised exactly when it should be: for every pool state,
`run` fails with the capacity-exceeded error if and only if the pool found by the
selection scan (after the age increment and any shrink pass this call triggered) has no
idle worker and at least `maxCapacity` workers; in every other case `run` succeeds.
With `maxCapacity = 4` and four busy workers the fifth `run` fails. -/
theorem capacity_exceeded_iff (p : ThreadPool) (name : String) (wm : WorkerMethod) (now : Int) :
    ((p.run name wm now).2 = RunResult.capacityExceeded ↔
      ((∀ t ∈ (p.ageStep now).mThreads, t.mIdle = false) ∧
        p.mMaxCapacity ≤ (p.ageStep now).mThreads.length)) ∧
    ((p.run name wm now).2 = RunResult.ok ↔
      ¬ ((∀ t ∈ (p.ageStep now).mThreads, t.mIdle = false) ∧
        p.mMaxCapacity ≤ (p.ageStep now).mThreads.length)) ∧
    ((execAll scenarioPool fourRuns).getNumActive = 4 ∧
      ((execAll scenarioPool fourRuns).run "e" 5 0).2 = RunResult.capacityExceeded) := by
  have h := run_fails_iff name wm now p
  refine ⟨h, ?_, by decide, by decide⟩
  rw [← h]
  cases (p.run name wm now).2 <;> simp

/-- C2. Idle reclamation count, evaluated on the code at scenario A: the pool
`Pool(defaultCapacity=2, maxCapacity=4, idleTimeout=60)` dispatches four tasks at time 0,
all four complete at time 1, and the shrink pass runs at time 100. All four workers are
idle with idle time 99, at least the timeout 60, yet the pass destroys no worker and
`getNumAllocated()` stays 4, where the claim says `min(4, 2) = 2`. -/
theorem idle_reclamation_scenario :
    (execAll scenarioPool (fourRuns ++ fourDone)).getNumAvailable = 4 ∧
    (∀ t ∈ (execAll scenarioPool (fourRuns ++ fourDone)).mThreads,
      t.isIdle = true ∧ t.idleTime 100 ≥ 60) ∧
    (execAll scenarioPool (fourRuns ++ fourDone)).mDefaultCapacity = 2 ∧
    ((execAll scenarioPool (fourRuns ++ fourDone)).clearUnused 100).getNumAllocated = 4 ∧
    ((execAll scenarioPool (fourRuns ++ fourDone)).clearUnused 100).getNumAvailable = 4 ∧
    newlyDestroyed (execAll scenarioPool (fourRuns ++ fourDone))
      ((execAll scenarioPool (fourRuns ++ fourDone)).clearUnused 100) = [] := by
  decide

/-- C6. Busy workers survive the shrink pass: for every pool state, the workers that
`clearUnused` hands to `destroyThread` are all idle; the old collection is a
rearrangement of the new collection together with the workers destroyed by the pass, so
when the old collection has no repeated worker each old worker is either in the new
collection or destroyed, never both and never neither, and the new collection has no
repeated worker; and when the pass runs (`mThreads.size() > defaultCapacity`) the new
collection is exactly its retained idle workers followed by all previously busy workers
in their original relative order. -/
theorem busy_survive_shrink (p : ThreadPool) (now : Int) :
    (p.clearUnused now).destroyed = p.destroyed ++ newlyDestroyed p (p.clearUnused now) ∧
    (∀ t ∈ newlyDestroyed p (p.clearUnused now), t.isIdle = true) ∧
    List.Perm p.mThreads ((p.clearUnused now).mThreads ++ newlyDestroyed p (p.clearUnused now)) ∧
    (p.mThreads.Nodup →
      (p.clearUnused now).mThreads.Nodup ∧
      ∀ t ∈ p.mThreads,
        (t ∈ (p.clearUnused now).mThreads ∧ t ∉ newlyDestroyed p (p.clearUnused now)) ∨
        (t ∉ (p.clearUnused now).mThreads ∧ t ∈ newlyDestroyed p (p.clearUnused now))) ∧
    (p.mDefaultCapacity < p.mThreads.length →
      (p.clearUnused now).mThreads =
        (p.clearUnused now).mThreads.filter (fun t => t.isIdle) ++ p.mThreads.filter isBusy) := by
  have hsum := clearUnused_summary now p
  have hperm := clearUnused_perm now p
  refine ⟨hsum.1, ?_, hperm, ?_, ?_⟩
  · intro t ht
    rcases hsum.2 with ⟨_, hn, _⟩ | ⟨_, hn, _⟩ | ⟨_, hn, _⟩
    · rw [hn] at ht; cases ht
    · rw [hn] at ht; cases ht
    · rw [hn] at ht; exact candidates_idle now p t ht
  · intro hnd
    have hnd2 : ((p.clearUnused now).mThreads ++ newlyDestroyed p (p.clearUnused now)).Nodup :=
      (List.Perm.nodup_iff hperm).1 hnd
    rw [List.nodup_append] at hnd2
    refine ⟨hnd2.1, ?_⟩
    intro t ht
    have hmem : t ∈ (p.clearUnused now).mThreads ++ newlyDestroyed p (p.clearUnused now) :=
      (List.Perm.mem_iff hperm).1 ht
    rcases List.mem_append.1 hmem with h | h
    · exact Or.inl ⟨h, fun h2 => hnd2.2.2 h h2⟩
    · exact Or.inr ⟨fun h2 => hnd2.2.2 h2 h, h⟩
  · intro hsize
    rcases hsum.2 with ⟨_, _, hle⟩ | ⟨ht, _, _⟩ | ⟨ht, _, _⟩
    · omega
    · rw [ht, List.filter_append, filter_idle_candidates, filter_idle_busy, List.append_nil]
    · rw [ht, filter_idle_busy, List.nil_append]

/-- Witness of C6: the shrink pass at time 100 on the scenario pool holding one expired
idle worker, one fresh idle worker and two busy workers (in that order). -/
theorem busy_survive_shrink_witness :
    (mixedPool.mThreads.Nodup ∧ mixedPool.mDefaultCapacity < mixedPool.mThreads.length) ∧
    ((mixedPool.clearUnused 100).mThreads.Nodup ∧
      (mixedPool.clearUnused 100).mThreads =
        (mixedPool.clearUnused 100).mThreads.filter (fun t => t.isIdle)
          ++ mixedPool.mThreads.filter isBusy) :=
  ⟨⟨by decide, by decide⟩,
    ((busy_survive_shrink mixedPool 100).2.2.2.1 (by decide)).1,
    (busy_survive_shrink mixedPool 100).2.2.2.2 (by decide)⟩

/-- C9. Shrink preference order: in `clearUnused`, an idle worker is put in
`expiredThreads` if and only if its idle time is at least `idleTimeout` and in
`idleThreads` (fresh) if and only if it is below; the candidate list is the fresh idle
workers in collection order followed by the expired idle workers in collection order;
when the pass runs, the idle workers it retains are a prefix of the candidate list and
the workers it destroys are the rest of that list; so, in every pool state, no fresh idle
worker is destroyed while an expired idle worker is retained. -/
theorem shrink_preference_order (p : ThreadPool) (now : Int) :
    (∀ t ∈ p.mThreads, t.isIdle = true →
      (t ∈ (classify now p.mIdleTimeout p.mThreads ([], [], [])).2.1 ↔
        t.idleTime now ≥ (p.mIdleTimeout : Int)) ∧
      (t ∈ (classify now p.mIdleTimeout p.mThreads ([], [], [])).1 ↔
        t.idleTime now < (p.mIdleTimeout : Int))) ∧
    ((classify now p.mIdleTimeout p.mThreads ([], [], [])).1
        ++ (classify now p.mIdleTimeout p.mThreads ([], [], [])).2.1 = candidates now p) ∧
    (p.mDefaultCapacity < p.mThreads.length →
      (p.clearUnused now).mThreads.filter (fun t => t.isIdle) <+: candidates now p ∧
      candidates now p = (p.clearUnused now).mThreads.filter (fun t => t.isIdle)
        ++ newlyDestroyed p (p.clearUnused now)) ∧
    ((∃ e ∈ (p.clearUnused now).mThreads, isExpired now p.mIdleTimeout e = true) →
      ∀ f ∈ newlyDestroyed p (p.clearUnused now), isFresh now p.mIdleTimeout f = false) := by
  have hsum := clearUnused_summary now p
  refine ⟨?_, ?_, ?_, ?_⟩
  · intro t ht hi
    rw [classify_eq]
    simp only [List.nil_append, List.mem_filter, isExpired, isFresh, hi, Bool.true_and,
      decide_eq_true_eq, Bool.not_eq_true', decide_eq_false_iff_not]
    constructor
    · exact ⟨fun h => h.2, fun h => ⟨ht, h⟩⟩
    · exact ⟨fun h => by omega, fun h => ⟨ht, by omega⟩⟩
  · rw [classify_eq]; rfl
  · intro hsize
    rcases hsum.2 with ⟨_, _, hle⟩ | ⟨ht, hn, _⟩ | ⟨ht, hn, _⟩
    · omega
    · rw [ht, hn, List.filter_append, filter_idle_candidates, filter_idle_busy, List.append_nil,
        List.append_nil]
      exact ⟨List.prefix_refl _, rfl⟩
    · rw [ht, hn, filter_idle_busy, List.nil_append]
      exact ⟨List.nil_prefix, rfl⟩
  · rintro ⟨e, he, hexp⟩ f hf
    rcases hsum.2 with ⟨_, hn, _⟩ | ⟨_, hn, _⟩ | ⟨ht, hn, _⟩
    · rw [hn] at hf; cases hf
    · rw [hn] at hf; cases hf
    · rw [ht] at he
      have hb := (List.mem_filter.1 he).2
      simp only [isBusy, Bool.not_eq_true'] at hb
      simp [isExpired, hb] at hexp

/-- Witness of C9: the shrink pass at time 100 on the scenario pool holding one expired
idle worker, one fresh idle worker and two busy workers. -/
theorem shrink_preference_order_witness :
    mixedPool.mDefaultCapacity < mixedPool.mThreads.length ∧
    ((mixedPool.clearUnused 100).mThreads.filter (fun t => t.isIdle) <+: candidates 100 mixedPool ∧
      candidates 100 mixedPool = (mixedPool.clearUnused 100).mThreads.filter (fun t => t.isIdle)
        ++ newlyDestroyed mixedPool (mixedPool.clearUnused 100)) :=
  ⟨by decide, (shrink_preference_order mixedPool 100).2.2.1 (by decide)⟩

/-- C5. Reuse: for every pool with `defaultCapacity > 0` (and fewer than `2^32` workers)
in which at least one owned worker is idle, `run(name, task)` succeeds without creating
or destroying a worker (`getNumAllocated()` is unchanged), and hands the task to the
first idle worker in the order in which the selection scan visits the collection: in the
resulting collection that worker carries the given name and task and is busy, and every
other worker is unchanged. The scanned collection is a rearrangement of the collection
before the call, and is that collection itself unless this call triggers the shrink pass. -/
theorem reuse_idle_worker (p : ThreadPool) (name : String) (wm : WorkerMethod) (now : Int)
    (hD : 0 < p.mDefaultCapacity) (hlen : p.mThreads.length < 4294967296)
    (hidle : ∃ t ∈ p.mThreads, t.isIdle = true) :
    (p.run name wm now).2 = RunResult.ok ∧
    (p.run name wm now).1.getNumAllocated = p.getNumAllocated ∧
    (p.run name wm now).1.mThreads.length = p.mThreads.length ∧
    (p.run name wm now).1.nextId = p.nextId ∧
    (p.run name wm now).1.destroyed = p.destroyed ∧
    List.Perm p.mThreads (p.ageStep now).mThreads ∧
    (u32 (p.mAge + 1) ≠ 32 → (p.ageStep now).mThreads = p.mThreads) ∧
    ∃ (i : Nat) (w : PooledThread),
      (p.ageStep now).mThreads[i]? = some w ∧ w.isIdle = true ∧
      (∀ j u, j < i → (p.ageStep now).mThreads[j]? = some u → u.isIdle = false) ∧
      (p.run name wm now).1.mThreads =
        (p.ageStep now).mThreads.take i
          ++ [{ w with mName := name, mWorkerMethod := some wm, mIdle := false,
                       mIdleTime := now, mThreadReady := true }]
          ++ (p.ageStep now).mThreads.drop (i + 1) := by
  obtain ⟨hdest, hperm, hsame⟩ := ageStep_keeps_all now p hD hlen hidle
  have hcfg := ageStep_config now p
  have hidle2 : ∃ t ∈ (p.ageStep now).mThreads, t.isIdle = true := by
    obtain ⟨t, ht, hi⟩ := hidle
    exact ⟨t, (List.Perm.mem_iff hperm).1 ht, hi⟩
  obtain ⟨i, hfi⟩ := firstIdle_exists _ hidle2
  obtain ⟨w, hw, hwi, hbefore, hupd⟩ := firstIdle_some _ i hfi
  have hrun : p.run name wm now =
      ({ p.ageStep now with
          mThreads := updateAt (PooledThread.start now wm) i
            (updateAt (PooledThread.setName name) i (p.ageStep now).mThreads) },
        RunResult.ok) := by
    rw [run_eq, hfi]
  have hlen2 : (p.ageStep now).mThreads.length = p.mThreads.length :=
    (List.Perm.length_eq hperm).symm
  rw [hrun]
  refine ⟨rfl, ?_, ?_, hcfg.2.2.2, hdest, hperm, hsame, i, w, hw, hwi, hbefore, ?_⟩
  · simp only [getNumAllocated, updateAt_length, hlen2]
  · simp only [updateAt_length, hlen2]
  · show updateAt (PooledThread.start now wm) i
        (updateAt (PooledThread.setName name) i (p.ageStep now).mThreads) = _
    rw [updateAt_updateAt, hupd]
    rfl

/-- Witness of C5 (scenario C): one task is dispatched and completes, then a second
`run` reuses the worker and `getNumAllocated()` stays 1. -/
theorem reuse_idle_worker_witness :
    (0 < oneDonePool.mDefaultCapacity ∧ oneDonePool.getNumAllocated = 1) ∧
    ((oneDonePool.run "b" 2 2).2 = RunResult.ok ∧
      (oneDonePool.run "b" 2 2).1.getNumAllocated = oneDonePool.getNumAllocated) :=
  ⟨⟨by decide, by decide⟩,
    (reuse_idle_worker oneDonePool "b" 2 2 (by decide) (by decide) (by decide)).1,
    (reuse_idle_worker oneDonePool "b" 2 2 (by decide) (by decide) (by decide)).2.1⟩

/-- C4. Atomicity of a failed dispatch: for every pool state reachable from a freshly
constructed pool, when `run(name, task)` fails with capacity-exceeded the owned-worker
collection (members, order, and each worker's name, idle flag and pending task) is the
same as before the call, no worker is created (`nextId` is unchanged) and none is
destroyed (the log of destroyed workers is unchanged) — whether or not the failing call
triggers the shrink pass. Only the dispatch counter and the count of shrink passes move. -/
theorem failed_run_no_change (p : ThreadPool) (name : String) (wm : WorkerMethod) (now : Int)
    (hreach : Reachable p)
    (hfail : (p.run name wm now).2 = RunResult.capacityExceeded) :
    (p.run name wm now).1.mThreads = p.mThreads ∧
    (p.run name wm now).1.destroyed = p.destroyed ∧
    (p.run name wm now).1.nextId = p.nextId ∧
    (p.run name wm now).1 =
      { p with mAge := (p.run name wm now).1.mAge,
               numClears := (p.run name wm now).1.numClears } := by
  obtain ⟨D, M, T, ops, rfl⟩ := hreach
  have hcap := execAll_capacity (ThreadPool.new D M T) ops (by simp [ThreadPool.new])
  have hbusy := fail_all_busy name wm now _ (by rw [hcap.2.1]; exact hcap.1) hfail
  have hst := run_fails_state name wm now _ hfail
  have hage := ageStep_all_busy now _ hbusy
  have hcfg := ageStep_config now (execAll (ThreadPool.new D M T) ops)
  rw [hst]
  refine ⟨hage.1, hage.2, hcfg.2.2.2, ?_⟩
  cases hq : (execAll (ThreadPool.new D M T) ops).ageStep now with
  | mk d m t a ths n ds c =>
    rw [hq] at hage hcfg
    simp only at hage hcfg
    simp only [ThreadPool.mk.injEq, true_and]
    exact ⟨hcfg.2.1, hcfg.1, hcfg.2.2.1, hage.1, hcfg.2.2.2, hage.2, trivial⟩

/-- Witness of C4: the fifth dispatch on the scenario pool with four busy workers. -/
theorem failed_run_no_change_witness :
    (Reachable (execAll scenarioPool fourRuns) ∧
      ((execAll scenarioPool fourRuns).run "e" 5 0).2 = RunResult.capacityExceeded) ∧
    (((execAll scenarioPool fourRuns).run "e" 5 0).1.mThreads
        = (execAll scenarioPool fourRuns).mThreads ∧
      ((execAll scenarioPool fourRuns).run "e" 5 0).1.destroyed
        = (execAll scenarioPool fourRuns).destroyed) :=
  ⟨⟨⟨2, 4, 60, fourRuns, rfl⟩, by decide⟩,
    (failed_run_no_change (execAll scenarioPool fourRuns) "e" 5 0
      ⟨2, 4, 60, fourRuns, rfl⟩ (by decide)).1,
    (failed_run_no_change (execAll scenarioPool fourRuns) "e" 5 0
      ⟨2, 4, 60, fourRuns, rfl⟩ (by decide)).2.1⟩

/-- C7. Aging trigger: take a freshly constructed pool and any sequence of events with
no explicit `clearUnused` call (calls of `run`, successful or failing, reusing or
growing, interleaved with task completions and `stopAll`), of which `n` calls of `run`
took place. The dispatch counter then equals `n mod 32` and exactly `n / 32` shrink
passes have occurred. The next call of `run`, the `(n+1)`-th, invokes the shrink pass if
and only if `n + 1` is a multiple of 32: in that case the pool its selection scans is
the result of `clearUnused` (entered with the counter at 32), and otherwise it is the
pool before the call with only the counter incremented; the counter after the call is
`(n+1) mod 32`. -/
theorem aging_trigger (threadCapacity maxCapacity idleTimeout : Nat) (ops : List PoolOp)
    (hno : ∀ op ∈ ops, op.isClearUnused = false)
    (p : ThreadPool) (n : Nat)
    (hp : p = execAll (ThreadPool.new threadCapacity maxCapacity idleTimeout) ops)
    (hn : n = countRuns
      (executedOps (ThreadPool.new threadCapacity maxCapacity idleTimeout) ops)) :
    p.mAge = n % 32 ∧
    p.numClears = n / 32 ∧
    ∀ (now : Int) (name : String) (wm : WorkerMethod),
      ((n + 1) % 32 = 0 →
        p.ageStep now = ThreadPool.clearUnused now { p with mAge := 32 } ∧
        p.getThread name now
          = selectStep name (ThreadPool.clearUnused now { p with mAge := 32 }) ∧
        (step p (PoolOp.run now name wm)).numClears = p.numClears + 1) ∧
      ((n + 1) % 32 ≠ 0 →
        p.ageStep now = { p with mAge := p.mAge + 1 } ∧
        p.getThread name now = selectStep name { p with mAge := p.mAge + 1 } ∧
        (step p (PoolOp.run now name wm)).numClears = p.numClears) ∧
      (step p (PoolOp.run now name wm)).mAge = (n + 1) % 32 := by
  subst hp
  subst hn
  have h := execAll_counters_of (ThreadPool.new threadCapacity maxCapacity idleTimeout) ops hno 0
    (by simp [ThreadPool.new]) (by simp [ThreadPool.new])
  rw [Nat.zero_add] at h
  refine ⟨h.1, h.2, ?_⟩
  intro now name wm
  have hr := run_counters_of name wm now _ _ h.1 h.2
  have hlt : (execAll (ThreadPool.new threadCapacity maxCapacity idleTimeout) ops).mAge + 1
      < 4294967296 := by omega
  have hu := u32_of_lt _ hlt
  refine ⟨?_, ?_, hr.1⟩
  · intro hmod
    have h32 : u32 ((execAll (ThreadPool.new threadCapacity maxCapacity idleTimeout) ops).mAge + 1)
        = 32 := by rw [hu]; omega
    have ha := ageStep_shrink now _ h32
    refine ⟨ha, ?_, ?_⟩
    · unfold getThread; rw [ha]
    · simp only [step]; rw [hr.2, h.2]; omega
  · intro hmod
    have h32 : u32 ((execAll (ThreadPool.new threadCapacity maxCapacity idleTimeout) ops).mAge + 1)
        ≠ 32 := by rw [hu]; omega
    have ha := ageStep_no_shrink now _ h32
    rw [hu] at ha
    refine ⟨ha, ?_, ?_⟩
    · unfold getThread; rw [ha]
    · simp only [step]; rw [hr.2, h.2]; omega

set_option maxRecDepth 100000 in
/-- Witness of C7: on the pool with default capacity 0, thirty-one dispatches have each
been followed by the completion of the task, so worker 0 is idle. The thirty-second
dispatch scans the result of `clearUnused`: the pass has destroyed worker 0, and the
call creates worker 1. -/
theorem aging_trigger_witness :
    ((∀ op ∈ agingOps, op.isClearUnused = false) ∧
      31 = countRuns (executedOps agingPool agingOps) ∧ (31 + 1) % 32 = 0) ∧
    ((execAll agingPool agingOps).ageStep 2
        = ThreadPool.clearUnused 2 { execAll agingPool agingOps with mAge := 32 } ∧
      (execAll agingPool agingOps).getThread "u" 2
        = selectStep "u" (ThreadPool.clearUnused 2 { execAll agingPool agingOps with mAge := 32 }) ∧
      (step (execAll agingPool agingOps) (PoolOp.run 2 "u" 8)).numClears
        = (execAll agingPool agingOps).numClears + 1) ∧
    (execAll agingPool agingOps).mThreads.map (fun t => t.id) = [0] ∧
    (newlyDestroyed (execAll agingPool agingOps)
        (step (execAll agingPool agingOps) (PoolOp.run 2 "u" 8))).map (fun t => t.id) = [0] ∧
    (step (execAll agingPool agingOps) (PoolOp.run 2 "u" 8)).mThreads.map (fun t => t.id) = [1] :=
  ⟨⟨by decide, by decide, by decide⟩,
    ((aging_trigger 0 4 60 agingOps (by decide) (execAll agingPool agingOps) 31 rfl
      (by decide)).2.2 2 "u" 8).1 (by decide),
    by decide, by decide, by decide⟩

/-- C8. Growth up to the cap: for every pool configuration and every sequence of
`n <= maxCapacity` consecutive `run` calls on a freshly constructed pool during which no
task completes, every call succeeds and creates exactly one new worker pushed at the
back of the collection; afterwards the collection consists of the `n` started workers in
call order, no worker has been destroyed, `getNumActive() = getNumAllocated() = n` and
`getNumAvailable() = 0` (also when `n >= 32` and the shrink pass fires in between). -/
theorem growth_to_cap (threadCapacity maxCapacity idleTimeout : Nat)
    (calls : List (Int × String × WorkerMethod))
    (hn : calls.length ≤ (ThreadPool.new threadCapacity maxCapacity idleTimeout).mMaxCapacity) :
    (execAll (ThreadPool.new threadCapacity maxCapacity idleTimeout) (calls.map callOp)).mThreads
      = calls.enum.map (fun ic => startedWorker ic.1 ic.2) ∧
    (execAll (ThreadPool.new threadCapacity maxCapacity idleTimeout) (calls.map callOp)).getNumActive
      = calls.length ∧
    (execAll (ThreadPool.new threadCapacity maxCapacity idleTimeout) (calls.map callOp)).getNumAllocated
      = calls.length ∧
    (execAll (ThreadPool.new threadCapacity maxCapacity idleTimeout) (calls.map callOp)).getNumAvailable
      = 0 ∧
    (execAll (ThreadPool.new threadCapacity maxCapacity idleTimeout) (calls.map callOp)).destroyed
      = [] ∧
    ∀ (pre : List (Int × String × WorkerMethod)) (c : Int × String × WorkerMethod)
      (post : List (Int × String × WorkerMethod)), calls = pre ++ c :: post →
      ((execAll (ThreadPool.new threadCapacity maxCapacity idleTimeout) (pre.map callOp)).run
          c.2.1 c.2.2 c.1).2 = RunResult.ok ∧
      ((execAll (ThreadPool.new threadCapacity maxCapacity idleTimeout) (pre.map callOp)).run
          c.2.1 c.2.2 c.1).1.mThreads
        = (execAll (ThreadPool.new threadCapacity maxCapacity idleTimeout) (pre.map callOp)).mThreads
            ++ [startedWorker pre.length c] := by
  have hmax : (ThreadPool.new threadCapacity maxCapacity idleTimeout).mMaxCapacity < 4294967296 :=
    u32_lt maxCapacity
  have key : ∀ cs : List (Int × String × WorkerMethod),
      cs.length ≤ (ThreadPool.new threadCapacity maxCapacity idleTimeout).mMaxCapacity →
      (execAll (ThreadPool.new threadCapacity maxCapacity idleTimeout) (cs.map callOp)).mThreads
        = cs.enum.map (fun ic => startedWorker ic.1 ic.2) ∧
      (execAll (ThreadPool.new threadCapacity maxCapacity idleTimeout) (cs.map callOp)).nextId
        = cs.length ∧
      (execAll (ThreadPool.new threadCapacity maxCapacity idleTimeout) (cs.map callOp)).destroyed
        = [] ∧
      (execAll (ThreadPool.new threadCapacity maxCapacity idleTimeout) (cs.map callOp)).mMaxCapacity
        = (ThreadPool.new threadCapacity maxCapacity idleTimeout).mMaxCapacity := by
    intro cs hcs
    have h := growth_general cs (ThreadPool.new threadCapacity maxCapacity idleTimeout)
      (by simp [ThreadPool.new]) (by simpa [ThreadPool.new] using hcs)
    refine ⟨?_, ?_, ?_, h.2.2.2⟩
    · rw [h.1]; simp [ThreadPool.new, List.enum]
    · rw [h.2.1]; simp [ThreadPool.new]
    · rw [h.2.2.1]; simp [ThreadPool.new]
  have allBusy : ∀ cs : List (Int × String × WorkerMethod),
      ∀ t ∈ cs.enum.map (fun ic => startedWorker ic.1 ic.2), t.mIdle = false := by
    intro cs t ht
    obtain ⟨ic, _, rfl⟩ := List.mem_map.1 ht
    rfl
  obtain ⟨hthreads, _, hdest, _⟩ := key calls hn
  have hlen : (execAll (ThreadPool.new threadCapacity maxCapacity idleTimeout)
      (calls.map callOp)).mThreads.length = calls.length := by
    rw [hthreads]; simp [List.enum]
  refine ⟨hthreads, ?_, ?_, ?_, hdest, ?_⟩
  · unfold getNumActive
    rw [numActive_all_busy _ 0 (by rw [hthreads]; exact allBusy calls) (by omega), hlen]
    omega
  · unfold getNumAllocated
    rw [hlen]; exact u32_of_lt _ (by omega)
  · unfold getNumAvailable
    exact numAvailable_all_busy _ 0 (by rw [hthreads]; exact allBusy calls)
  · intro pre c post hsplit
    have hpre : pre.length < (ThreadPool.new threadCapacity maxCapacity idleTimeout).mMaxCapacity := by
      have : calls.length = pre.length + (post.length + 1) := by
        rw [hsplit]; simp
      omega
    obtain ⟨hpt, hpn, _, hpm⟩ := key pre (by omega)
    have hr := run_all_busy c.2.1 c.2.2 c.1
      (execAll (ThreadPool.new threadCapacity maxCapacity idleTimeout) (pre.map callOp))
      (by rw [hpt]; exact allBusy pre)
      (by rw [hpm, hpt]; simpa [List.enum] using hpre)
    refine ⟨hr.1, ?_⟩
    rw [hr.2.1, hpn]

/-- Witness of C8 (scenario A, first half): four dispatches of still-running tasks on the
scenario pool give `getNumActive() = 4`. -/
theorem growth_to_cap_witness :
    fourCalls.length ≤ scenarioPool.mMaxCapacity ∧
    ((execAll scenarioPool (fourCalls.map callOp)).getNumActive = fourCalls.length ∧
      (execAll scenarioPool (fourCalls.map callOp)).getNumAllocated = fourCalls.length ∧
      (execAll scenarioPool (fourCalls.map callOp)).getNumAvailable = 0) :=
  ⟨by decide,
    (growth_to_cap 2 4 60 fourCalls (by decide)).2.1,
    (growth_to_cap 2 4 60 fourCalls (by decide)).2.2.1,
    (growth_to_cap 2 4 60 fourCalls (by decide)).2.2.2.1⟩

/-- C10. Teardown, evaluated on the code: the scenario pool holds workers 0 and 1, idle,
and workers 2 and 3, each executing a task. `stopAll()` destroys workers 0 and 1, then
the `destroy()` of worker 2 signals termination while the task is executing; the
critical section after the task clears `mThreadReady`, the backing thread never exits,
the join never returns and neither does `stopAll()`: workers 2 and 3 are not destroyed
and the collection is not emptied, where the claim says that after `stopAll()` every
worker has been destroyed and the counters are 0. On the same pool once all four tasks
have completed, `stopAll()` returns with the four workers destroyed in order and
`getNumAllocated()`, `getNumActive()`, `getNumAvailable()` at 0. -/
theorem teardown_blocks_on_busy_worker :
    mixedPool.mThreads.map (fun t => (t.id, t.isIdle))
      = [(0, true), (1, true), (2, false), (3, false)] ∧
    (mixedPool.stopAll 100).hasReturned = false ∧
    (mixedPool.stopAll 100).stuckId = some 2 ∧
    (mixedPool.stopAll 100).destroyedLog.map (fun t => t.id) = [0, 1] ∧
    ((execAll scenarioPool (fourRuns ++ fourDone)).stopAll 100).poolAfter.map
        (fun q => (q.mThreads.length, q.destroyed.map (fun t => t.id),
          q.getNumAllocated, q.getNumActive, q.getNumAvailable))
      = some (0, [0, 1, 2, 3], 0, 0, 0) := by
  decide

/-- C12. Termination after an in-flight task, evaluated on the code: a worker is
created, started with task 7 and woken, so it is executing the task. The signalling step
of `destroy()` then runs (pending task emptied, `mThreadReady` set), and after it the
task finishes. The critical section that follows the task clears `mThreadReady`, so back
at the wait the guard is not satisfied and the wake step cannot be taken: the loop never
observes the empty pending task and does not exit, where the claim says it exits. When
the signalling step comes after the task has finished, the loop does exit. -/
theorem termination_signal_erased :
    busyWorker.map (fun s => s.phase) = some (LoopPhase.running 7) ∧
    (busyWorker.bind (fun s => workerExec s [WorkerEvent.destroySignal])).map
        (fun s => (s.thread.mWorkerMethod, waitGuard s))
      = some (none, true) ∧
    (busyWorker.bind
        (fun s => workerExec s [WorkerEvent.destroySignal, WorkerEvent.loopFinish 5])).map
        (fun s => (s.phase, s.thread.mWorkerMethod, waitGuard s))
      = some (LoopPhase.waiting, none, false) ∧
    busyWorker.bind
        (fun s => workerExec s
          [WorkerEvent.destroySignal, WorkerEvent.loopFinish 5, WorkerEvent.loopWake])
      = none ∧
    (busyWorker.bind
        (fun s => workerExec s
          [WorkerEvent.loopFinish 5, WorkerEvent.destroySignal, WorkerEvent.loopWake])).map
        (fun s => s.phase)
      = some LoopPhase.exited := by
  decide

/-- C13. Shrink pass at or below the steady-state size: for every pool state,
`clearUnused()` sets the dispatch counter to 0; and when `mThreads.size()` is at most
`defaultCapacity` the pass changes no other field of the pool (beyond the ghost count of
shrink passes): the owned collection, with its order and every worker's state, is
unchanged and no worker is handed to `destroyThread`, whatever the idle times. -/
theorem shrink_noop_at_steady_state (p : ThreadPool) (now : Int) :
    (p.clearUnused now).mAge = 0 ∧
    (p.mThreads.length ≤ p.mDefaultCapacity →
      p.clearUnused now = { p with mAge := 0, numClears := p.numClears + 1 } ∧
      (p.clearUnused now).mThreads = p.mThreads ∧
      (p.clearUnused now).destroyed = p.destroyed ∧
      newlyDestroyed p (p.clearUnused now) = []) := by
  refine ⟨clearUnused_age now p, ?_⟩
  intro hle
  have hs := clearUnused_small now p hle
  refine ⟨?_, hs.1, hs.2, ?_⟩
  · rw [clearUnused_eq]
    simp [hle]
  · exact newlyDestroyed_of_append p _ [] (by rw [hs.2]; simp)

/-- Witness of C13: the scenario pool with two workers, both idle and expired at time
100, and default capacity 2. -/
theorem shrink_noop_at_steady_state_witness :
    (twoIdlePool.mThreads.length ≤ twoIdlePool.mDefaultCapacity ∧
      ∀ t ∈ twoIdlePool.mThreads, isExpired 100 twoIdlePool.mIdleTimeout t = true) ∧
    ((twoIdlePool.clearUnused 100).mThreads = twoIdlePool.mThreads ∧
      (twoIdlePool.clearUnused 100).destroyed = twoIdlePool.destroyed ∧
      newlyDestroyed twoIdlePool (twoIdlePool.clearUnused 100) = []) :=
  ⟨⟨by decide, by decide⟩,
    ((shrink_noop_at_steady_state twoIdlePool 100).2 (by decide)).2⟩

/-- C11. No double-dispatch, evaluated on the code: two concurrent calls
`run("x", 8)` and `run("y", 9)` are made on the freshly constructed scenario pool and on
the scenario pool holding one idle worker. `getThread` leaves the idle flag of the
worker it returns untouched (only `start` clears it), so in each of the four
interleavings in which both selections precede both hand-offs the two calls are handed
the same worker, where the claim says they never are; only the two interleavings that
run one call after the other hand out different workers. With the selections of A then B
and the hand-offs of A then B on the fresh pool, both calls hold worker 0, a single
worker is allocated, and it is left with task 9 only. -/
theorem double_dispatch_race :
    interleavings.map
        (fun steps => sameWorkerHanded (raceExec (2, "x", 8) (2, "y", 9) scenarioPool steps))
      = [false, false, true, true, true, true] ∧
    interleavings.map
        (fun steps => sameWorkerHanded (raceExec (2, "x", 8) (2, "y", 9) oneDonePool steps))
      = [false, false, true, true, true, true] ∧
    (raceExec (2, "x", 8) (2, "y", 9) scenarioPool
        [RaceStep.selectA, RaceStep.selectB, RaceStep.startA, RaceStep.startB]).handedA
      = some 0 ∧
    (raceExec (2, "x", 8) (2, "y", 9) scenarioPool
        [RaceStep.selectA, RaceStep.selectB, RaceStep.startA, RaceStep.startB]).handedB
      = some 0 ∧
    (raceExec (2, "x", 8) (2, "y", 9) scenarioPool
        [RaceStep.selectA, RaceStep.selectB, RaceStep.startA, RaceStep.startB]).pool.mThreads.map
        (fun t => (t.id, t.mWorkerMethod))
      = [(0, some 9)] := by
  decide

end BansheeEngine
